import Mathlib

/-!
Verification of the movie-dataset cleaning and loading pipeline
(`app/filter_movies.py` and `app/insertion.py`).

The development shallowly embeds the pipeline:

* a JSON value model `Jv` with an executable parser `jsonLoads` and encoder
  `encV` standing for Python's `json.loads` / `json.dumps` on the fragment of
  JSON the dataset uses (null, booleans, integers, escape-free strings,
  arrays, objects; `json.dumps` defaults: separators `", "` and `": "`,
  `ensure_ascii=False`);
* the per-entity cleaning functions (`clean_movies`, `clean_credits`,
  `clean_links`, `clean_ratings`, `clean_keywords`, `explode_keywords`) as
  functions on typed row lists, with pandas chunking made explicit as a list
  of row batches, pandas numeric/date coercions represented by `Option`-typed
  fields, `sort_values` as a stable insertion sort (pandas multi-column sorts
  use the stable `np.lexsort`), and `drop_duplicates` as explicit
  first/last-occurrence deduplication;
* the batch loader (`safe_insert_many` and the `insert_*` accounting) over an
  abstract bulk-write store response, and the load phase's setup validation
  (`assert_csv_exists` and `main`).

Text is modelled as `List Char`.  The quote characters are named (`dqc`,
`sqc`, `bsc`) so concrete serialized fixtures can be written as explicit
character lists.
-/

/-- The double-quote character `"`. -/
def dqc : Char := Char.ofNat 34

/-- The single-quote character `'`. -/
def sqc : Char := Char.ofNat 39

/-- The backslash character `\`. -/
def bsc : Char := Char.ofNat 92

/-- JSON values as the dataset uses them: null, booleans, (integer) numbers,
strings without escape sequences, arrays and objects.  This is the common
image of Python's `json.loads` on the movie dataset's nested columns. -/
inductive Jv where
  | jnull : Jv
  | jbool (b : Bool) : Jv
  | jnum (n : Int) : Jv
  | jstr (s : List Char) : Jv
  | jarr (xs : List Jv) : Jv
  | jobj (kvs : List (List Char × Jv)) : Jv

/-- Whitespace as `json.loads` skips it. -/
def isWs (c : Char) : Bool :=
  c = ' ' ∨ c = '\t' ∨ c = '\n' ∨ c = '\r'

/-- ASCII decimal digit test. -/
def isDig (c : Char) : Bool :=
  '0' ≤ c ∧ c ≤ '9'

/-- Drop leading JSON whitespace. -/
def skipWs (s : List Char) : List Char := s.dropWhile isWs

/-- The digit character for `d < 10`. -/
def digitCh (d : Nat) : Char := Char.ofNat (48 + d)

/-- Decimal digits of a natural number, most significant first
(accumulator-based, with a fuel argument that only needs to exceed `n`). -/
def natDigitsAux : Nat → Nat → List Char → List Char
  | 0, _, acc => acc
  | fuel + 1, n, acc =>
    if n < 10 then digitCh n :: acc
    else natDigitsAux fuel (n / 10) (digitCh (n % 10) :: acc)

/-- Decimal digits of a natural number, most significant first. -/
def natDigits (n : Nat) : List Char := natDigitsAux (n + 1) n []

/-- Numeric value of a digit string (fold of `10 * acc + digit`). -/
def natOfDigitsFrom (a : Nat) (ds : List Char) : Nat :=
  ds.foldl (fun acc c => 10 * acc + (c.toNat - 48)) a

/-- Numeric value of a digit string. -/
def natOfDigits (ds : List Char) : Nat := natOfDigitsFrom 0 ds

/-- Scan a run of decimal digits; fails when there is none. -/
def scanNat (s : List Char) : Option (Nat × List Char) :=
  let ds := s.takeWhile isDig
  if ds.isEmpty then none else some (natOfDigits ds, s.dropWhile isDig)

/-- Scan the body of a JSON string up to the closing quote.  Escape sequences
are outside the modelled fragment, so a backslash makes the scan fail. -/
def scanStr : List Char → Option (List Char × List Char)
  | [] => none
  | c :: r =>
    if c = dqc then some ([], r)
    else if c = bsc then none
    else (scanStr r).map fun p => (c :: p.1, p.2)

/-- What a parsing step returns: a value, an array tail or an object tail. -/
inductive PRes where
  | v (x : Jv) : PRes
  | vs (xs : List Jv) : PRes
  | kvs (m : List (List Char × Jv)) : PRes

/-- Parsing mode: a value, the elements of an array after `[`, or the
members of an object after `{`. -/
inductive PMode where
  | val : PMode
  | elems : PMode
  | members : PMode
deriving DecidableEq

/-- One recursive-descent parser for the modelled JSON fragment.  The `Nat`
fuel makes the recursion structural; `jsonLoads` supplies a budget large
enough for its input (each `val`/`elems` or `val`/`members` round trip
consumes at least one character, so twice the length plus two suffices). -/
def parseP : Nat → PMode → List Char → Option (PRes × List Char)
  | 0, _, _ => none
  | fuel + 1, .val, s =>
    match skipWs s with
    | [] => none
    | c :: r =>
      if c = '[' then
        match skipWs r with
        | ']' :: r2 => some (.v (.jarr []), r2)
        | _ =>
          match parseP fuel .elems (skipWs r) with
          | some (.vs xs, r2) => some (.v (.jarr xs), r2)
          | _ => none
      else if c = '{' then
        match skipWs r with
        | '}' :: r2 => some (.v (.jobj []), r2)
        | _ =>
          match parseP fuel .members (skipWs r) with
          | some (.kvs m, r2) => some (.v (.jobj m), r2)
          | _ => none
      else if c = dqc then
        match scanStr r with
        | some (cs, r2) => some (.v (.jstr cs), r2)
        | none => none
      else if c = '-' then
        match scanNat r with
        | some (n, r2) => some (.v (.jnum (-(n : Int))), r2)
        | none => none
      else if isDig c then
        match scanNat (c :: r) with
        | some (n, r2) => some (.v (.jnum (n : Int)), r2)
        | none => none
      else if c = 'n' then
        match r with
        | 'u' :: 'l' :: 'l' :: r2 => some (.v .jnull, r2)
        | _ => none
      else if c = 't' then
        match r with
        | 'r' :: 'u' :: 'e' :: r2 => some (.v (.jbool true), r2)
        | _ => none
      else if c = 'f' then
        match r with
        | 'a' :: 'l' :: 's' :: 'e' :: r2 => some (.v (.jbool false), r2)
        | _ => none
      else none
  | fuel + 1, .elems, s =>
    match parseP fuel .val s with
    | some (.v v, r) =>
      (match skipWs r with
       | ',' :: r2 =>
         match parseP fuel .elems r2 with
         | some (.vs xs, r3) => some (.vs (v :: xs), r3)
         | _ => none
       | ']' :: r2 => some (.vs [v], r2)
       | _ => none)
    | _ => none
  | fuel + 1, .members, s =>
    match skipWs s with
    | c :: r =>
      if c = dqc then
        match scanStr r with
        | some (k, r2) =>
          (match skipWs r2 with
           | ':' :: r3 =>
             match parseP fuel .val r3 with
             | some (.v v, r4) =>
               (match skipWs r4 with
                | ',' :: r5 =>
                  match parseP fuel .members r5 with
                  | some (.kvs m, r6) => some (.kvs ((k, v) :: m), r6)
                  | _ => none
                | '}' :: r5 => some (.kvs [(k, v)], r5)
                | _ => none)
             | _ => none
           | _ => none)
        | none => none
      else none
    | [] => none

/-- `json.loads`: parse a full value and reject trailing content
("Extra data" in Python). -/
def jsonLoads (s : List Char) : Option Jv :=
  match parseP (2 * s.length + 2) .val s with
  | some (.v v, r) => if skipWs r = [] then some v else none
  | _ => none

mutual

/-- `json.dumps` with default separators on the modelled fragment:
encode one value. -/
def encV : Jv → List Char
  | .jnull => ['n', 'u', 'l', 'l']
  | .jbool true => ['t', 'r', 'u', 'e']
  | .jbool false => ['f', 'a', 'l', 's', 'e']
  | .jnum n => if n < 0 then '-' :: natDigits (-n).toNat else natDigits n.toNat
  | .jstr s => dqc :: s ++ [dqc]
  | .jarr [] => ['[', ']']
  | .jarr (x :: xs) => '[' :: (encV x ++ encItems xs) ++ [']']
  | .jobj [] => ['{', '}']
  | .jobj ((k, v) :: m) =>
    '{' :: (dqc :: k ++ dqc :: ':' :: ' ' :: encV v ++ encMembers m) ++ ['}']

/-- Encode the remaining elements of a nonempty array (`, ` before each). -/
def encItems : List Jv → List Char
  | [] => []
  | x :: xs => ',' :: ' ' :: encV x ++ encItems xs

/-- Encode the remaining members of a nonempty object (`, ` before each). -/
def encMembers : List (List Char × Jv) → List Char
  | [] => []
  | (k, v) :: m => ',' :: ' ' :: dqc :: k ++ dqc :: ':' :: ' ' :: encV v ++ encMembers m

end

/-- Python `str.strip()`: remove leading and trailing whitespace. -/
def strip (s : List Char) : List Char :=
  ((s.dropWhile isWs).reverse.dropWhile isWs).reverse

/-- Python `str.lower()` on the ASCII fragment. -/
def lowerStr (s : List Char) : List Char := s.map Char.toLower

/-- Replace single quotes by double quotes, as `value.replace("'", '"')`. -/
def sqToDq (c : Char) : Char := if c = sqc then dqc else c

/-- Replace double quotes by single quotes (used to build the single-quoted
serialization of a value from the canonical double-quoted one). -/
def dqToSq (c : Char) : Char := if c = dqc then sqc else c

/-- `filter_movies.parse_json_safe`: `None`/`NaN` (here `none`), empty or
`"null"` text give `[]`; otherwise strict `json.loads`, then a permissive
pass replacing single quotes by double quotes, then `[]`.  The Python
function returns the parsed object itself on success; failure returns the
empty Python list, i.e. `Jv.jarr []`. -/
def parse_json_safe (value : Option (List Char)) : Jv :=
  match value with
  | none => .jarr []
  | some s0 =>
    let s := strip s0
    if s.isEmpty then .jarr []
    else if lowerStr s = ['n', 'u', 'l', 'l'] then .jarr []
    else
      match jsonLoads s with
      | some v => v
      | none =>
        match jsonLoads (s.map sqToDq) with
        | some v => v
        | none => .jarr []

/-- `insertion.parse_json`: like `parse_json_safe` but the guard set is
`{"", "null", "nan"}` on the stripped, lowercased text. -/
def parse_json (value : Option (List Char)) : Jv :=
  match value with
  | none => .jarr []
  | some s0 =>
    let s := strip s0
    if lowerStr s = [] ∨ lowerStr s = ['n', 'u', 'l', 'l'] ∨
        lowerStr s = ['n', 'a', 'n'] then .jarr []
    else
      match jsonLoads s with
      | some v => v
      | none =>
        match jsonLoads (s.map sqToDq) with
        | some v => v
        | none => .jarr []

/-- `filter_movies.json_dump_if`: serialize lists/dicts, empty text
otherwise. -/
def json_dump_if (obj : Option Jv) : List Char :=
  match obj with
  | some (.jarr xs) => encV (.jarr xs)
  | some (.jobj m) => encV (.jobj m)
  | _ => []

/-- `clean_credits.to_list`: parse, and keep the result only when it is a
list. -/
def to_list (x : Option (List Char)) : List Jv :=
  match parse_json_safe x with
  | .jarr xs => xs
  | _ => []

/-- `clean_movies.parse_collection`: `None`/blank/`"null"` give `None`;
otherwise `parse_json_safe`, kept only when it decodes to a dict. -/
def parse_collection (x : Option (List Char)) : Option Jv :=
  match x with
  | none => none
  | some s =>
    if (strip s).isEmpty ∨ lowerStr (strip s) = ['n', 'u', 'l', 'l'] then none
    else
      match parse_json_safe (some s) with
      | .jobj m => some (.jobj m)
      | _ => none

/-- Association lookup on an object's members (Python `d.get(k)`). -/
def objGet (kvs : List (List Char × Jv)) (k : List Char) : Option Jv :=
  match kvs.find? (fun p => p.1 = k) with
  | some p => some p.2
  | none => none

/-! ### Generic list building blocks

pandas primitives made explicit: stable sorting (`sort_values` uses the
stable `np.lexsort` for multi-column keys), first/last-occurrence
deduplication (`drop_duplicates`), chunking, and the header-once CSV sink.
-/

/-- Insert into a list sorted by `le` (before the first element it is
`le`-below); the recursion of a stable insertion sort. -/
def insSorted (le : α → α → Bool) (x : α) : List α → List α
  | [] => [x]
  | y :: ys => if le x y then x :: y :: ys else y :: insSorted le x ys

/-- Stable insertion sort: equivalent elements keep their input order, which
is exactly the guarantee pandas `sort_values` gives via `np.lexsort`. -/
def isort (le : α → α → Bool) : List α → List α
  | [] => []
  | x :: xs => insSorted le x (isort le xs)

/-- `drop_duplicates(subset=key, keep="first")` relative to keys already
seen: keep a row iff its key was not seen before, accumulating seen keys. -/
def dedupFirstAux [DecidableEq κ] (key : α → κ) : List α → List κ → List α
  | [], _ => []
  | x :: xs, seen =>
    if key x ∈ seen then dedupFirstAux key xs seen
    else x :: dedupFirstAux key xs (key x :: seen)

/-- `drop_duplicates(subset=key, keep="first")`. -/
def dedupFirst [DecidableEq κ] (key : α → κ) (l : List α) : List α :=
  dedupFirstAux key l []

/-- `drop_duplicates(subset=key, keep="last")`: keep a row iff no later row
has the same key. -/
def dedupLast [DecidableEq κ] (key : α → κ) : List α → List α
  | [] => []
  | x :: xs => if key x ∈ xs.map key then dedupLast key xs else x :: dedupLast key xs

/-- `drop_duplicates()` over whole rows (keep the first occurrence). -/
def dedupRows [DecidableEq α] (l : List α) : List α := dedupFirst id l

/-- Split into batches of at most `bs` rows (the loader's batching; the fuel
equals the list length, enough because `bs ≥ 1` strictly shrinks the list). -/
def chunksOfAux (bs : Nat) : Nat → List α → List (List α)
  | 0, _ => []
  | _, [] => []
  | fuel + 1, l => l.take bs :: chunksOfAux bs fuel (l.drop bs)

/-- Split into batches of at most `bs` rows. -/
def chunksOf (bs : Nat) (l : List α) : List (List α) := chunksOfAux bs l.length l

/-- A line of an output CSV: the header line or a data row. -/
inductive Line (ρ : Type) where
  | header : Line ρ
  | row (r : ρ) : Line ρ
deriving DecidableEq

/-- The clean sink writer: each surviving, normalized batch is appended via
`to_csv(..., header=first_chunk, mode="w" if first_chunk else "a")`.  With
zero batches nothing is ever opened, hence `none`. -/
def writeChunksAux : List (List ρ) → Bool → List (Line ρ) → List (Line ρ)
  | [], _, acc => acc
  | c :: cs, first, acc =>
    writeChunksAux cs false
      (acc ++ (if first then Line.header :: c.map Line.row else c.map Line.row))

/-- The output file produced by the chunked cleaners' write loop, `none`
when no chunk was ever written. -/
def writeFile (chunks : List (List ρ)) : Option (List (Line ρ)) :=
  match chunks with
  | [] => none
  | _ => some (writeChunksAux chunks true [])

/-! ### Ratings cleaning (`filter_movies.clean_ratings`)

Chunks come from `pd.read_csv(path, chunksize=CHUNK_SIZE)`; the chunk
decomposition is an explicit argument.  A raw row carries the results of the
numeric and temporal coercions: `pd.to_numeric(..., errors="coerce")` is `none`
on non-numeric text and `pd.to_datetime(..., unit="s", errors="coerce")` is
`none` on an unparsable timestamp, `some` of the epoch seconds otherwise.
-/

/-- A raw ratings row after the per-column coercions. -/
structure RatingRaw where
  userId : Option Int
  movieId : Option Int
  rating : Option ℚ
  timestamp : Option Int
deriving DecidableEq

/-- A surviving ratings row (ids cast to int, timestamp in epoch seconds). -/
structure RatingRow where
  userId : Int
  movieId : Int
  rating : ℚ
  ts : Int
deriving DecidableEq

/-- The `--ratings-keep` retention policy. -/
inductive KeepPolicy where
  | first : KeepPolicy
  | last : KeepPolicy
  | all : KeepPolicy
deriving DecidableEq

/-- Per-chunk type filters of `clean_ratings`: `rating.between(0, 10)`
(false on NaN), non-null timestamp, `dropna` on both ids. -/
def ratingsTyped (df : List RatingRaw) : List RatingRow :=
  df.filterMap fun r =>
    match r.userId, r.movieId, r.rating, r.timestamp with
    | some u, some m, some q, some t =>
      if 0 ≤ q ∧ q ≤ 10 then some ⟨u, m, q, t⟩ else none
    | _, _, _, _ => none

/-- Sort key of `df.sort_values(["userId", "movieId", "timestamp"])`:
lexicographic, all ascending; ties keep input order (stable sort). -/
def ratingLe (a b : RatingRow) : Bool :=
  a.userId < b.userId ∨
    (a.userId = b.userId ∧
      (a.movieId < b.movieId ∨ (a.movieId = b.movieId ∧ a.ts ≤ b.ts)))

/-- The (user, movie) dedup key. -/
def rkey (r : RatingRow) : Int × Int := (r.userId, r.movieId)

/-- The cross-chunk timestamp index is `defaultdict(int)`: lookup of an
absent key yields `0`.  Keys map to nanosecond timestamps. -/
def lookup0 (m : List ((Int × Int) × Int)) (k : Int × Int) : Int :=
  match m.find? (fun p => p.1 = k) with
  | some p => p.2
  | none => 0

/-- Key membership in the timestamp index. -/
def hasKey (m : List ((Int × Int) × Int)) (k : Int × Int) : Bool :=
  (m.find? (fun p => p.1 = k)).isSome

/-- Record a key's timestamp (`latest_ts[key] = ts`). -/
def setKey (m : List ((Int × Int) × Int)) (k : Int × Int) (ts : Int) :
    List ((Int × Int) × Int) :=
  (k, ts) :: m

/-- The nanosecond value of a row's timestamp (`int(r.timestamp.value)`). -/
def tsNs (r : RatingRow) : Int := r.ts * 1000000000

/-- Cross-chunk dedup mask loop of `clean_ratings`: for `last`, keep a row
iff its timestamp is `≥` the recorded one (absent reads as `0`), updating
the index; for `first`, keep iff the key is unseen, recording it. -/
def crossChunk (keep : KeepPolicy) :
    List RatingRow → List ((Int × Int) × Int) →
    List RatingRow × List ((Int × Int) × Int)
  | [], m => ([], m)
  | r :: rs, m =>
    match keep with
    | .last =>
      if tsNs r ≥ lookup0 m (rkey r) then
        let p := crossChunk keep rs (setKey m (rkey r) (tsNs r))
        (r :: p.1, p.2)
      else
        crossChunk keep rs m
    | .first =>
      if hasKey m (rkey r) then crossChunk keep rs m
      else
        let p := crossChunk keep rs (setKey m (rkey r) (tsNs r))
        (r :: p.1, p.2)
    | .all => (r :: rs, m)

/-- One chunk of `clean_ratings`: type filters, then (unless `keep="all"`)
the stable sort, within-chunk `drop_duplicates(keep=...)` on
`(userId, movieId)` and the cross-chunk mask. -/
def ratingsChunkStep (keep : KeepPolicy) (m : List ((Int × Int) × Int))
    (df : List RatingRaw) : List RatingRow × List ((Int × Int) × Int) :=
  let typed := ratingsTyped df
  match keep with
  | .all => (typed, m)
  | _ =>
    let sorted := isort ratingLe typed
    let deduped :=
      match keep with
      | .last => dedupLast rkey sorted
      | _ => dedupFirst rkey sorted
    crossChunk keep deduped m

/-- All per-chunk outputs of `clean_ratings`, in write order. -/
def cleanRatingsChunks (keep : KeepPolicy) :
    List (List RatingRaw) → List ((Int × Int) × Int) → List (List RatingRow)
  | [], _ => []
  | c :: cs, m =>
    let p := ratingsChunkStep keep m c
    p.1 :: cleanRatingsChunks keep cs p.2

/-- The data rows of the cleaned ratings file, in file order. -/
def clean_ratings (keep : KeepPolicy) (chunks : List (List RatingRaw)) :
    List RatingRow :=
  (cleanRatingsChunks keep chunks []).flatten

/-- The cleaned ratings file itself (header-once append loop). -/
def cleanRatingsFile (keep : KeepPolicy) (chunks : List (List RatingRaw)) :
    Option (List (Line RatingRow)) :=
  writeFile (cleanRatingsChunks keep chunks [])

/-! ### Movies cleaning (`filter_movies.clean_movies`)

A raw row carries coercion results: `id` is the `pd.to_numeric` result
(`none` on non-numeric text), `title` is `none` when null, the numeric
columns are `pd.to_numeric(..., errors="coerce")` results, `release_year`
is the year of the `pd.to_datetime(..., errors="coerce")` result (`none`
for NaT), and the JSON-ish columns are the raw cell texts.
-/

/-- Longest plausible film, `MAX_RUNTIME` in the source. -/
def MAX_RUNTIME : ℚ := 873

/-- A raw movies row after the per-column coercions. -/
structure MovieRaw where
  id : Option Int
  title : Option (List Char)
  budget : Option ℚ
  revenue : Option ℚ
  runtime : Option ℚ
  vote_average : Option ℚ
  vote_count : Option ℚ
  popularity : Option ℚ
  release_year : Option Int
  genres : Option (List Char)
  production_companies : Option (List Char)
  production_countries : Option (List Char)
  spoken_languages : Option (List Char)
  belongs_to_collection : Option (List Char)

/-- A movies row with the id forced numeric (`astype(int)`). -/
structure MovieIded extends MovieRaw where
  idv : Int

/-- A cleaned movies output row (JSON columns re-serialized, `year` added). -/
structure MovieRow where
  id : Int
  title : List Char
  budget : Option ℚ
  revenue : Option ℚ
  runtime : Option ℚ
  vote_average : Option ℚ
  vote_count : Option ℚ
  popularity : Option ℚ
  year : Int
  genres : List Char
  production_companies : List Char
  production_countries : List Char
  spoken_languages : List Char
  belongs_to_collection : List Char
deriving DecidableEq

/-- Steps 1–4 of a movies chunk: force numeric ids, require a title, then
`drop_duplicates(subset=["id"])` within the chunk and the cross-chunk
`seen_ids` filter.  Returns the surviving rows and the ids added to
`seen_ids` (the source updates `seen_ids` at this point, before the later
row filters). -/
def movieDedupStage (seen : List Int) (df : List MovieRaw) :
    List MovieIded × List Int :=
  let s1 : List MovieIded := df.filterMap fun r =>
    match r.id with
    | some i => some ⟨r, i⟩
    | none => none
  let s2 := s1.filter fun r => r.title.isSome
  let s3 := dedupFirst (fun r : MovieIded => r.idv) s2
  let s4 := s3.filter fun r => r.idv ∉ seen
  (s4, seen ++ s4.map (fun r => r.idv))

/-- Step 5a of a movies chunk: a negative runtime becomes `pd.NA`. -/
def movieFixRuntime (s4 : List MovieIded) : List MovieIded :=
  s4.map fun r =>
    { r with runtime := match r.runtime with
                        | some q => if q < 0 then none else some q
                        | none => none }

/-- Steps 5b–7 of a movies chunk: drop over-long runtimes, out-of-range
`vote_average`, and (when `min_votes > 0`) low-signal titles. -/
def movieFilters57 (minVotes : ℚ) (s4 : List MovieIded) : List MovieIded :=
  let s5 := (movieFixRuntime s4).filter fun r =>
    match r.runtime with
    | some q => decide (q ≤ MAX_RUNTIME)
    | none => true
  let s6 := s5.filter fun r =>
    match r.vote_average with
    | some q => 0 ≤ q ∧ q ≤ 10
    | none => True
  if 0 < minVotes then
    s6.filter fun r =>
      ¬ (r.vote_count.getD 0 < minVotes ∨ r.vote_average.getD 0 = 0)
  else s6

/-- Steps 8–9 of a movies chunk: the date filters and the JSON
re-serialization into an output row. -/
def movieFinalize (yearMin yearMax : Int) (s7 : List MovieIded) : List MovieRow :=
  s7.filterMap fun r =>
    match r.release_year with
    | none => none
    | some y =>
      if yearMin ≤ y ∧ y ≤ yearMax then
        some { id := r.idv
               title := r.title.getD []
               budget := r.budget
               revenue := r.revenue
               runtime := r.runtime
               vote_average := r.vote_average
               vote_count := r.vote_count
               popularity := r.popularity
               year := y
               genres := json_dump_if (some (parse_json_safe r.genres))
               production_companies :=
                 json_dump_if (some (parse_json_safe r.production_companies))
               production_countries :=
                 json_dump_if (some (parse_json_safe r.production_countries))
               spoken_languages :=
                 json_dump_if (some (parse_json_safe r.spoken_languages))
               belongs_to_collection :=
                 json_dump_if (parse_collection r.belongs_to_collection) }
      else none

/-- Steps 5–9 of a movies chunk. -/
def movieRowFilters (yearMin yearMax : Int) (minVotes : ℚ) (s4 : List MovieIded) :
    List MovieRow :=
  movieFinalize yearMin yearMax (movieFilters57 minVotes s4)

/-- One full movies chunk. -/
def movieChunkStep (yearMin yearMax : Int) (minVotes : ℚ) (seen : List Int)
    (df : List MovieRaw) : List MovieRow × List Int :=
  let p := movieDedupStage seen df
  (movieRowFilters yearMin yearMax minVotes p.1, p.2)

/-- All per-chunk outputs of `clean_movies`, in write order. -/
def cleanMoviesChunks (yearMin yearMax : Int) (minVotes : ℚ) :
    List (List MovieRaw) → List Int → List (List MovieRow)
  | [], _ => []
  | c :: cs, seen =>
    let p := movieChunkStep yearMin yearMax minVotes seen c
    p.1 :: cleanMoviesChunks yearMin yearMax minVotes cs p.2

/-- The data rows of the cleaned movies file. -/
def clean_movies (yearMin yearMax : Int) (minVotes : ℚ)
    (chunks : List (List MovieRaw)) : List MovieRow :=
  (cleanMoviesChunks yearMin yearMax minVotes chunks []).flatten

/-- The cleaned movies file itself. -/
def cleanMoviesFile (yearMin yearMax : Int) (minVotes : ℚ)
    (chunks : List (List MovieRaw)) : Option (List (Line MovieRow)) :=
  writeFile (cleanMoviesChunks yearMin yearMax minVotes chunks [])

/-! ### Credits cleaning (`filter_movies.clean_credits`)

Not chunked: the whole file is one frame.  `cast`/`crew` go through
`to_list`, `coverage = len(cast) + len(crew)`, then the frame is stably
sorted by `(id ascending, coverage descending)` and
`drop_duplicates(subset=["id"], keep="first")` retains the first row of
each id group.
-/

/-- A raw credits row. -/
structure CreditRaw where
  id : Int
  cast : Option (List Char)
  crew : Option (List Char)

/-- A credits row after `to_list` parsing, with its coverage. -/
structure CreditRow where
  id : Int
  cast : List Jv
  crew : List Jv

/-- `coverage = len(cast) + len(crew)`. -/
def coverage (r : CreditRow) : Nat := r.cast.length + r.crew.length

/-- Sort key of `sort_values(["id", "coverage"], ascending=[True, False])`. -/
def creditLe (a b : CreditRow) : Bool :=
  a.id < b.id ∨ (a.id = b.id ∧ coverage b ≤ coverage a)

/-- Parse the raw rows (`to_list` on both JSON columns). -/
def creditsParsed (df : List CreditRaw) : List CreditRow :=
  df.map fun r => ⟨r.id, to_list r.cast, to_list r.crew⟩

/-- The dedup core of `clean_credits`: stable sort then keep-first by id. -/
def creditsDedup (df : List CreditRaw) : List CreditRow :=
  dedupFirst (fun r : CreditRow => r.id) (isort creditLe (creditsParsed df))

/-- A cleaned credits output row (`cast`/`crew` re-serialized; the
`coverage` helper column stays in the written frame). -/
structure CreditOut where
  id : Int
  cast : List Char
  crew : List Char
  coverage : Nat
deriving DecidableEq

/-- Serialize one surviving credits row for the output file. -/
def creditSerialize (r : CreditRow) : CreditOut :=
  ⟨r.id, json_dump_if (some (.jarr r.cast)), json_dump_if (some (.jarr r.crew)),
    coverage r⟩

/-- The rows of the cleaned credits file. -/
def clean_credits (df : List CreditRaw) : List CreditOut :=
  (creditsDedup df).map creditSerialize

/-! ### Links cleaning (`filter_movies.clean_links`) -/

/-- A raw links row after `pd.to_numeric(..., errors="coerce")`. -/
structure LinkRaw where
  movieId : Option Int
  imdbId : Option Int
  tmdbId : Option Int

/-- A cleaned links row. -/
structure LinkRow where
  movieId : Int
  imdbId : Int
  tmdbId : Option Int

/-- `clean_links`: drop nulls (always on `movieId`/`imdbId`; on `tmdbId`
too unless `keep_null_tmdb`), then `drop_duplicates(subset=["movieId"])`. -/
def clean_links (keepNullTmdb : Bool) (df : List LinkRaw) : List LinkRow :=
  let typed : List LinkRow := df.filterMap fun r =>
    match r.movieId, r.imdbId with
    | some m, some i =>
      if keepNullTmdb then some ⟨m, i, r.tmdbId⟩
      else match r.tmdbId with
           | some t => some ⟨m, i, some t⟩
           | none => none
    | _, _ => none
  dedupFirst (fun r : LinkRow => r.movieId) typed

/-! ### Keywords cleaning (`filter_movies.clean_keywords` and
`filter_movies.explode_keywords`) -/

/-- A raw keywords row: `pd.to_numeric(df["id"], errors="coerce")` yields a
float column, so the coerced id is a rational value (or `NaN`, here
`none`); the truncation to `int` happens later in the pipeline. -/
structure KeywordRaw where
  id : Option ℚ
  keywords : Option (List Char)

/-- A cleaned keywords row. -/
structure KeywordRow where
  id : Int
  keywords : List Char
deriving DecidableEq

/-- `astype(int)` on a float column: C-style truncation toward zero. -/
def astypeInt (q : ℚ) : Int := if 0 ≤ q then ⌊q⌋ else ⌈q⌉

/-- `norm_list`: keep dict entries whose `name` is a non-empty string that
stays non-empty after `strip()`, lowercase it, and carry the optional `id`.
(Entries whose `name` is a non-string value are outside the model: on those
the source itself would fail on `.strip()`.) -/
def norm_list (xs : List Jv) : List Jv :=
  xs.filterMap fun d =>
    match d with
    | .jobj kvs =>
      match objGet kvs ['n', 'a', 'm', 'e'] with
      | some (.jstr s) =>
        if s = [] then none
        else
          let name := strip s
          if name = [] then none
          else some (.jobj [(['i', 'd'], (objGet kvs ['i', 'd']).getD .jnull),
                            (['n', 'a', 'm', 'e'], .jstr (lowerStr name))])
      | _ => none
    | _ => none

/-- `clean_keywords` up to its id handling: `dropna` on the float-coerced
`id` column, then `drop_duplicates(subset=["id"])` — still on the float
ids; the `astype(int)` truncation only runs on the deduplicated frame. -/
def keywordsDeduped (df : List KeywordRaw) : List (ℚ × Option (List Char)) :=
  dedupFirst (fun p : ℚ × Option (List Char) => p.1)
    (df.filterMap fun r =>
      match r.id with
      | some q => some (q, r.keywords)
      | none => none)

/-- `clean_keywords`: numeric ids, `dropna` + `drop_duplicates` on the
float `id`, `astype(int)` afterwards, then parse, normalize and
re-serialize the keyword list. -/
def clean_keywords (df : List KeywordRaw) : List KeywordRow :=
  (keywordsDeduped df).map fun p =>
    let parsed := match parse_json_safe p.2 with
                  | .jarr xs => xs
                  | _ => []
    ⟨astypeInt p.1, json_dump_if (some (.jarr (norm_list parsed)))⟩

/-- The `(movie_id, keyword)` pairs `explode_keywords` accumulates before
its final dedup: numeric ids truncated with `astype(int)` before the loop,
then one pair per named dict entry of each row's parsed keyword list. -/
def explodedPairs (df : List KeywordRaw) : List (Int × List Char) :=
  let src := df.filterMap fun r =>
    match r.id with
    | some q => some (astypeInt q, r.keywords)
    | none => none
  src.flatMap fun p =>
    match parse_json_safe p.2 with
    | .jarr items =>
      items.filterMap fun d =>
        match d with
        | .jobj kvs =>
          match objGet kvs ['n', 'a', 'm', 'e'] with
          | some (.jstr s) =>
            if s = [] then none
            else
              let name := lowerStr (strip s)
              if name = [] then none else some (p.1, name)
          | _ => none
        | _ => none
    | _ => []

/-- `explode_keywords`: the accumulated pairs with a full-row
`drop_duplicates()` at the end. -/
def explode_keywords (df : List KeywordRaw) : List (Int × List Char) :=
  dedupRows (explodedPairs df)

/-! ### Chunked source reader

`pd.read_csv(path, chunksize=CHUNK_SIZE)` over a file with a header and a
list of data rows.  pandas' parser wrappers catch the immediate
`StopIteration` of a data-less file on the first read and return an empty
frame with the header's columns, so a header-only file yields exactly one
empty chunk; a file with data yields its rows in batches of `CHUNK_SIZE`.
-/

/-- The source's chunk size. -/
def CHUNK_SIZE : Nat := 100000

/-- The chunk sequence `read_csv` produces from a file's data rows. -/
def readCsvChunks (rows : List ρ) : List (List ρ) :=
  match rows with
  | [] => [[]]
  | _ => chunksOf CHUNK_SIZE rows

/-! ### Batch loader (`insertion.safe_insert_many` and the `insert_*` loops)

The store's answer to one `insert_many(batch, ordered=False)` call is either
success or a `BulkWriteError` carrying `nInserted` and the per-document
write errors' codes (`11000` is the duplicate-key code).
-/

/-- The details of a `BulkWriteError`. -/
structure WriteDetails where
  nInserted : Nat
  writeErrors : List Nat
deriving DecidableEq

/-- The store's response to one unordered bulk insert. -/
inductive BulkResp where
  | ok : BulkResp
  | fail (d : WriteDetails) : BulkResp
deriving DecidableEq

/-- The loader's counters (`stats["ok"]`, `stats["dupkey"]`,
`stats["errors"]`; absent keys read as 0). -/
structure InsStats where
  ok : Nat
  dupkey : Nat
  errors : Nat
deriving DecidableEq

/-- `safe_insert_many`: an empty batch returns immediately; success counts
the whole batch as accepted; on a `BulkWriteError` the batch-level error
counter steps, `nInserted` documents are accepted and the duplicate-key
write errors (code 11000) are tallied. -/
def safe_insert_many (batchLen : Nat) (resp : BulkResp) (stats : InsStats) :
    InsStats :=
  if batchLen = 0 then stats
  else
    match resp with
    | .ok => { stats with ok := stats.ok + batchLen }
    | .fail d =>
      { ok := stats.ok + d.nInserted
        dupkey := stats.dupkey + d.writeErrors.countP (fun c => c == 11000)
        errors := stats.errors + 1 }

/-- A whole load run: fold `safe_insert_many` over the submitted batches
paired with the store's responses. -/
def runBatches (pairs : List (List δ × BulkResp)) (stats : InsStats) : InsStats :=
  match pairs with
  | [] => stats
  | (b, r) :: rest => runBatches rest (safe_insert_many b.length r stats)

/-- A store response accounts for a batch of `n` documents when every
document is either inserted or returned as a write error (`insert_many`
with `ordered=False` attempts every document). -/
def RespAccounts (n : Nat) : BulkResp → Prop
  | .ok => True
  | .fail d => d.nInserted + d.writeErrors.length = n

/-- The non-duplicate ("other") per-document errors of a response. -/
def otherErrors : BulkResp → Nat
  | .ok => 0
  | .fail d => d.writeErrors.countP (fun c => c != 11000)

/-- A raw `movies_metadata_clean.csv` row as `insert_movies` reads it: the
admission logic only inspects `parse_int(row["id"])` and
`parse_float(row["runtime"])`; the other columns are copied into the
document unchecked and do not affect which documents are submitted. -/
structure InsMovieRaw where
  id : Option Int
  runtime : Option ℚ

/-- The keys of the documents `insert_movies` submits: rows with a
non-negative numeric id whose runtime does not exceed the ceiling (a
negative runtime is nulled, not dropped). -/
def insertMoviesKeys (maxRuntime : ℚ) (rows : List InsMovieRaw) : List Int :=
  rows.filterMap fun r =>
    match r.id with
    | none => none
    | some i =>
      if i < 0 then none
      else
        match r.runtime with
        | some q => if maxRuntime < q then none else some i
        | none => some i

/-- A raw `ratings_clean.csv` row as `insert_ratings` reads it. -/
structure InsRatingRaw where
  userId : Option Int
  movieId : Option Int
  rating : Option ℚ
  timestamp : Option Int

/-- A ratings document. -/
structure RatingDoc where
  userId : Int
  movieId : Int
  rating : ℚ
  timestamp : Option Int
deriving DecidableEq

/-- The documents `insert_ratings` submits: both ids and the rating must
parse, and the rating must lie in `[0, 10]`. -/
def insertRatingsDocs (rows : List InsRatingRaw) : List RatingDoc :=
  rows.filterMap fun r =>
    match r.userId, r.movieId, r.rating with
    | some u, some m, some q =>
      if 0 ≤ q ∧ q ≤ 10 then some ⟨u, m, q, r.timestamp⟩ else none
    | _, _, _ => none

/-! ### Load-phase setup validation (`insertion.assert_csv_exists` and
`insertion.main`)

`main` validates the movies, credits, links and ratings files before any
insert; the keywords files are opened unvalidated, after all four inserts
already ran.  The model records how many rows were processed before an
error surfaced.
-/

/-- A CSV file on disk: its header columns and its number of data rows. -/
structure CsvFile where
  header : List (List Char)
  rowCount : Nat

/-- The load phase's fatal setup errors. -/
inductive LoadErr where
  | fileNotFound : LoadErr
  | missingFields : LoadErr
deriving DecidableEq

/-- `assert_csv_exists`: `FileNotFoundError` for an absent path,
`ValueError` when a required column is missing from the header. -/
def assert_csv_exists (f : Option CsvFile) (req : List (List Char)) :
    Option LoadErr :=
  match f with
  | none => some .fileNotFound
  | some c => if req.all (fun r => r ∈ c.header) then none else some .missingFields

/-- The six input files of the load phase (`none` = absent). -/
structure LoadInputs where
  movies : Option CsvFile
  credits : Option CsvFile
  links : Option CsvFile
  ratings : Option CsvFile
  keywordsClean : Option CsvFile
  keywordsExploded : Option CsvFile

/-- Required columns of `movies_metadata_clean.csv`. -/
def reqMovies : List (List Char) :=
  [['i', 'd'], ['t', 'i', 't', 'l', 'e'],
   ['r', 'e', 'l', 'e', 'a', 's', 'e', '_', 'd', 'a', 't', 'e']]

/-- Required columns of `credits_clean.csv`. -/
def reqCredits : List (List Char) :=
  [['c', 'a', 's', 't'], ['c', 'r', 'e', 'w']]

/-- Required columns of `links_clean.csv`. -/
def reqLinks : List (List Char) :=
  [['m', 'o', 'v', 'i', 'e', 'I', 'd'], ['i', 'm', 'd', 'b', 'I', 'd'],
   ['t', 'm', 'd', 'b', 'I', 'd']]

/-- Required columns of `ratings_clean.csv`. -/
def reqRatings : List (List Char) :=
  [['u', 's', 'e', 'r', 'I', 'd'], ['m', 'o', 'v', 'i', 'e', 'I', 'd'],
   ['r', 'a', 't', 'i', 'n', 'g'],
   ['t', 'i', 'm', 'e', 's', 't', 'a', 'm', 'p']]

/-- Row count of a possibly absent file. -/
def rowsOf (f : Option CsvFile) : Nat :=
  match f with
  | some c => c.rowCount
  | none => 0

/-- `insertion.main` up to the index declarations: the four
`assert_csv_exists` validations, then the six insert loops in order, each
opening its file row by row.  Result: the fatal error, if any, and how many
input rows were processed before it surfaced. -/
def loadPhase (fs : LoadInputs) : Option LoadErr × Nat :=
  match assert_csv_exists fs.movies reqMovies with
  | some e => (some e, 0)
  | none =>
    match assert_csv_exists fs.credits reqCredits with
    | some e => (some e, 0)
    | none =>
      match assert_csv_exists fs.links reqLinks with
      | some e => (some e, 0)
      | none =>
        match assert_csv_exists fs.ratings reqRatings with
        | some e => (some e, 0)
        | none =>
          let n4 := rowsOf fs.movies + rowsOf fs.credits + rowsOf fs.links +
            rowsOf fs.ratings
          match fs.keywordsClean with
          | none => (some .fileNotFound, n4)
          | some kc =>
            match fs.keywordsExploded with
            | none => (some .fileNotFound, n4 + kc.rowCount)
            | some ke => (none, n4 + kc.rowCount + ke.rowCount)

/-! ### Generic lemmas about the building blocks -/

/-- Is a CSV line the header line? -/
def isHeaderLine : Line ρ → Bool
  | .header => true
  | .row _ => false

theorem writeChunksAux_false (cs : List (List ρ)) :
    ∀ acc, writeChunksAux cs false acc = acc ++ cs.flatten.map Line.row := by
  induction cs with
  | nil => intro acc; simp [writeChunksAux]
  | cons c cs ih => intro acc; simp [writeChunksAux, ih]

theorem writeFile_eq (chunks : List (List ρ)) (h : chunks ≠ []) :
    writeFile chunks = some (Line.header :: chunks.flatten.map Line.row) := by
  match chunks, h with
  | c :: cs, _ =>
    simp [writeFile, writeChunksAux, writeChunksAux_false]

theorem countP_header_map_row (rows : List ρ) :
    (rows.map Line.row).countP isHeaderLine = 0 := by
  induction rows with
  | nil => rfl
  | cons r rows ih => simp [List.countP_cons, isHeaderLine, ih]

theorem dedupFirstAux_key_nodup [DecidableEq κ] (key : α → κ) :
    ∀ (l : List α) (seen : List κ),
      ((dedupFirstAux key l seen).map key).Nodup ∧
        ∀ x ∈ dedupFirstAux key l seen, key x ∉ seen := by
  intro l
  induction l with
  | nil => intro seen; simp [dedupFirstAux]
  | cons x xs ih =>
    intro seen
    by_cases hx : key x ∈ seen
    · simpa [dedupFirstAux, hx] using ih seen
    · have h2 := ih (key x :: seen)
      constructor
      · simp only [dedupFirstAux, hx, if_false]
        simp only [List.map_cons, List.nodup_cons]
        refine ⟨?_, h2.1⟩
        intro hmem
        obtain ⟨y, hy, hyk⟩ := List.mem_map.mp hmem
        exact (h2.2 y hy) (by simp [hyk])
      · intro z hz
        simp only [dedupFirstAux, hx, if_false, List.mem_cons] at hz
        rcases hz with rfl | hz
        · exact hx
        · have := h2.2 z hz
          intro hc; exact this (List.mem_cons_of_mem _ hc)

theorem dedupFirst_key_nodup [DecidableEq κ] (key : α → κ) (l : List α) :
    ((dedupFirst key l).map key).Nodup :=
  (dedupFirstAux_key_nodup key l []).1

theorem dedupLast_key_nodup [DecidableEq κ] (key : α → κ) :
    ∀ l : List α, ((dedupLast key l).map key).Nodup ∧
      ∀ k, k ∈ (dedupLast key l).map key → k ∈ l.map key := by
  intro l
  induction l with
  | nil => simp [dedupLast]
  | cons x xs ih =>
    by_cases hx : key x ∈ xs.map key
    · constructor
      · simpa [dedupLast, hx] using ih.1
      · intro k hk
        simp only [dedupLast, hx, if_true] at hk
        exact List.mem_cons_of_mem _ (ih.2 k hk)
    · constructor
      · simp only [dedupLast, hx, if_false, List.map_cons, List.nodup_cons]
        exact ⟨fun hc => hx (ih.2 _ hc), ih.1⟩
      · intro k hk
        simp only [dedupLast, hx, if_false, List.map_cons, List.mem_cons] at hk ⊢
        rcases hk with rfl | hk
        · exact Or.inl rfl
        · exact Or.inr (ih.2 k hk)

theorem chunksOfAux_sum (bs : Nat) (hbs : 0 < bs) :
    ∀ (fuel : Nat) (l : List α), l.length ≤ fuel →
      ((chunksOfAux bs fuel l).map List.length).sum = l.length := by
  intro fuel
  induction fuel with
  | zero =>
    intro l hl
    have hnil : l = [] := List.eq_nil_of_length_eq_zero (Nat.le_zero.mp hl)
    subst hnil
    simp [chunksOfAux]
  | succ fuel ih =>
    intro l hl
    match l with
    | [] => simp [chunksOfAux]
    | x :: xs =>
      have hlen : (x :: xs).length = xs.length + 1 := rfl
      have hdrop : (List.drop bs (x :: xs)).length ≤ fuel := by
        simp only [List.length_drop]
        omega
      simp only [chunksOfAux, List.map_cons, List.sum_cons, ih _ hdrop,
        List.length_take, List.length_drop]
      omega

theorem chunksOf_sum (bs : Nat) (hbs : 0 < bs) (l : List α) :
    ((chunksOf bs l).map List.length).sum = l.length :=
  chunksOfAux_sum bs hbs l.length l le_rfl

theorem countP_dup_split (l : List Nat) :
    l.countP (fun c => c == 11000) + l.countP (fun c => c != 11000) = l.length := by
  induction l with
  | nil => rfl
  | cons c cs ih =>
    simp only [List.countP_cons, List.length_cons]
    by_cases h : c = 11000
    · rw [if_pos (by simp [h]), if_neg (by simp [h])]
      omega
    · rw [if_neg (by simp [h]), if_pos (by simp [h])]
      omega

theorem runBatches_closure {δ : Type} (pairs : List (List δ × BulkResp)) :
    ∀ s : InsStats, (∀ p ∈ pairs, RespAccounts p.1.length p.2) →
      (runBatches pairs s).ok + (runBatches pairs s).dupkey +
        (pairs.map fun p => otherErrors p.2).sum =
      s.ok + s.dupkey + (pairs.map fun p => p.1.length).sum := by
  induction pairs with
  | nil => intro s _; simp [runBatches]
  | cons p rest ih =>
    intro s hacc
    obtain ⟨b, r⟩ := p
    have hp : RespAccounts b.length r := hacc ⟨b, r⟩ (List.mem_cons_self _ _)
    have hrest : ∀ q ∈ rest, RespAccounts q.1.length q.2 := fun q hq =>
      hacc q (List.mem_cons_of_mem _ hq)
    have hih := ih (safe_insert_many b.length r s) hrest
    have hstat : (safe_insert_many b.length r s).ok +
        (safe_insert_many b.length r s).dupkey + otherErrors r =
        s.ok + s.dupkey + b.length := by
      by_cases hb : b.length = 0
      · cases r with
        | ok => simp [safe_insert_many, hb, otherErrors]
        | fail d =>
          simp only [RespAccounts, hb] at hp
          have hnil : d.writeErrors = [] := List.eq_nil_of_length_eq_zero (by omega)
          simp [safe_insert_many, hb, otherErrors, hnil, hp]
      · cases r with
        | ok => simp [safe_insert_many, hb, otherErrors]; omega
        | fail d =>
          simp only [RespAccounts] at hp
          have hsplit := countP_dup_split d.writeErrors
          simp only [safe_insert_many, hb, if_false, otherErrors]
          omega
    simp only [runBatches, List.map_cons, List.sum_cons]
    omega

/-! ### Claim C7: header exactly once -/

/-- C7.  For every sequence of one or more batches written by the clean sink
writer, the output stream is the header followed by the batches' rows in
order: the header is written exactly once, with the first batch, and every
subsequent batch is appended without a header. -/
theorem clean_sink_header_once {ρ : Type} (chunks : List (List ρ))
    (h : chunks ≠ []) :
    writeFile chunks = some (Line.header :: chunks.flatten.map Line.row) ∧
      (Line.header :: chunks.flatten.map Line.row).countP isHeaderLine = 1 := by
  refine ⟨writeFile_eq chunks h, ?_⟩
  rw [List.countP_cons, countP_header_map_row]
  rfl

/-- Witness for C7 at a concrete two-batch input. -/
theorem clean_sink_header_once_witness :
    writeFile [[(1 : Nat)], [2, 3]] =
        some (Line.header :: ([[(1 : Nat)], [2, 3]] : List (List Nat)).flatten.map Line.row) ∧
      (Line.header :: ([[(1 : Nat)], [2, 3]] : List (List Nat)).flatten.map Line.row).countP
          isHeaderLine = 1 :=
  clean_sink_header_once [[1], [2, 3]] (by decide)

/-! ### Claim C3: loader accounting closure -/

/-- C3.  For every sequence of batches submitted by the batch loader, if the
store's unordered bulk writes account for every document of a batch (every
document is inserted or returned as a write error), then after the run
accepted + duplicate-key-rejected + other-errored equals the total number of
documents submitted; moreover the loader's batching itself loses no
document: the batch sizes of `chunksOf` sum to the document count. -/
theorem loader_accounting_closure (pairs : List (List Int × BulkResp))
    (hacc : ∀ p ∈ pairs, RespAccounts p.1.length p.2) :
    (runBatches pairs ⟨0, 0, 0⟩).ok + (runBatches pairs ⟨0, 0, 0⟩).dupkey +
        (pairs.map fun p => otherErrors p.2).sum =
      (pairs.map fun p => p.1.length).sum ∧
    ∀ (bs : Nat) (docs : List Int), 0 < bs →
      ((chunksOf bs docs).map List.length).sum = docs.length := by
  refine ⟨?_, fun bs docs hbs => chunksOf_sum bs hbs docs⟩
  simpa using runBatches_closure pairs ⟨0, 0, 0⟩ hacc

/-- Witness for C3: two batches, one fully accepted, one with a duplicate
key and an unrelated write error. -/
theorem loader_accounting_closure_witness :
    (∀ p ∈ [([1, 2], BulkResp.ok),
            ([3, 4, 5], BulkResp.fail ⟨1, [11000, 121]⟩)],
        RespAccounts p.1.length p.2) ∧
    (runBatches [([1, 2], BulkResp.ok),
                 ([(3 : Int), 4, 5], BulkResp.fail ⟨1, [11000, 121]⟩)] ⟨0, 0, 0⟩).ok +
        (runBatches [([1, 2], BulkResp.ok),
                     ([(3 : Int), 4, 5], BulkResp.fail ⟨1, [11000, 121]⟩)] ⟨0, 0, 0⟩).dupkey +
        ([([(1 : Int), 2], BulkResp.ok),
          ([3, 4, 5], BulkResp.fail ⟨1, [11000, 121]⟩)].map fun p => otherErrors p.2).sum =
      ([([(1 : Int), 2], BulkResp.ok),
        ([3, 4, 5], BulkResp.fail ⟨1, [11000, 121]⟩)].map fun p => p.1.length).sum := by
  constructor
  · intro p hp
    fin_cases hp <;> simp [RespAccounts]
  · exact (loader_accounting_closure _ (by intro p hp; fin_cases hp <;> simp [RespAccounts])).1

/-! ### Claim C9: load-phase setup errors -/

/-- C9 (amended).  If one of the four validated inputs of the load phase
(movies, credits, links, ratings) is absent or lacks a required header
column, the phase aborts with an immediately surfaced error before any row
of any input is processed.  (The keywords files are not validated up front;
see the counterexample.) -/
theorem load_setup_fatal_before_rows (fs : LoadInputs)
    (h : (assert_csv_exists fs.movies reqMovies).isSome ∨
         (assert_csv_exists fs.credits reqCredits).isSome ∨
         (assert_csv_exists fs.links reqLinks).isSome ∨
         (assert_csv_exists fs.ratings reqRatings).isSome) :
    (loadPhase fs).1.isSome ∧ (loadPhase fs).2 = 0 := by
  unfold loadPhase
  cases hm : assert_csv_exists fs.movies reqMovies with
  | some e => simp
  | none =>
    cases hc : assert_csv_exists fs.credits reqCredits with
    | some e => simp
    | none =>
      cases hl : assert_csv_exists fs.links reqLinks with
      | some e => simp
      | none =>
        cases hr : assert_csv_exists fs.ratings reqRatings with
        | some e => simp
        | none => simp [hm, hc, hl, hr] at h

/-- Witness for C9 at a run whose ratings file lacks its required columns. -/
theorem load_setup_fatal_before_rows_witness :
    ((assert_csv_exists (some ⟨reqMovies, 5⟩) reqMovies).isSome ∨
      (assert_csv_exists (some ⟨reqCredits, 5⟩) reqCredits).isSome ∨
      (assert_csv_exists (some ⟨reqLinks, 5⟩) reqLinks).isSome ∨
      (assert_csv_exists (some ⟨[['u', 's', 'e', 'r', 'I', 'd']], 5⟩) reqRatings).isSome) ∧
    ((loadPhase ⟨some ⟨reqMovies, 5⟩, some ⟨reqCredits, 5⟩, some ⟨reqLinks, 5⟩,
        some ⟨[['u', 's', 'e', 'r', 'I', 'd']], 5⟩, none, none⟩).1.isSome ∧
      (loadPhase ⟨some ⟨reqMovies, 5⟩, some ⟨reqCredits, 5⟩, some ⟨reqLinks, 5⟩,
        some ⟨[['u', 's', 'e', 'r', 'I', 'd']], 5⟩, none, none⟩).2 = 0) :=
  ⟨by decide, load_setup_fatal_before_rows _ (by decide)⟩

/-- A load run whose four validated files are fine but whose keywords file
is absent. -/
def fsNoKeywords : LoadInputs :=
  { movies := some ⟨reqMovies, 1⟩
    credits := some ⟨reqCredits, 1⟩
    links := some ⟨reqLinks, 1⟩
    ratings := some ⟨reqRatings, 1⟩
    keywordsClean := none
    keywordsExploded := none }

/-- C9 counterexample.  With `keywords_clean.csv` absent (an input file of
the load phase), the error surfaces only after the four validated inputs'
rows were all processed: the claim "aborts before any row of any input is
processed" fails for this input file. -/
theorem load_setup_keywords_not_prevalidated :
    loadPhase fsNoKeywords = (some LoadErr.fileNotFound, 4) ∧ (4 : Nat) ≠ 0 := by
  constructor
  · rfl
  · decide

/-! ### Claim C10: exploded keywords pair uniqueness -/

/-- C10.  The exploded keywords output contains at most one row per
`(movie id, keyword text)` pair: the final whole-row `drop_duplicates()`
removes duplicate pairs whatever their origin (repeated keywords inside one
movie's list or repeated movie rows). -/
theorem exploded_keywords_pairs_unique (df : List KeywordRaw) :
    (explode_keywords df).Nodup := by
  have h := (dedupFirst_key_nodup (id : Int × List Char → Int × List Char)
    (explodedPairs df))
  simpa [explode_keywords, dedupRows] using h

/-! ### Claim C6: empty input handling -/

/-- A load run over header-only cleaned files (all headers valid, zero data
rows). -/
def headerOnlyInputs : LoadInputs :=
  { movies := some ⟨reqMovies, 0⟩
    credits := some ⟨reqCredits, 0⟩
    links := some ⟨reqLinks, 0⟩
    ratings := some ⟨reqRatings, 0⟩
    keywordsClean := some ⟨[['i', 'd'], ['k', 'e', 'y', 'w', 'o', 'r', 'd', 's']], 0⟩
    keywordsExploded := some ⟨[['m', 'o', 'v', 'i', 'e', '_', 'i', 'd'],
      ['k', 'e', 'y', 'w', 'o', 'r', 'd']], 0⟩ }

/-- C6.  A header-only input file yields one empty chunk, so the chunked
cleaners write a header-only output file; the loader on header-only files
validates them, processes zero rows, submits zero batches, accepts zero
documents and raises no error. -/
theorem empty_input_header_only :
    (∀ (yearMin yearMax : Int) (minVotes : ℚ),
        cleanMoviesFile yearMin yearMax minVotes (readCsvChunks []) =
          some [Line.header]) ∧
    (∀ keep : KeepPolicy,
        cleanRatingsFile keep (readCsvChunks []) = some [Line.header]) ∧
    insertRatingsDocs [] = [] ∧
    (∀ bs : Nat, chunksOf bs (insertRatingsDocs []) = []) ∧
    runBatches ([] : List (List RatingDoc × BulkResp)) ⟨0, 0, 0⟩ = ⟨0, 0, 0⟩ ∧
    loadPhase headerOnlyInputs = (none, 0) := by
  refine ⟨?_, ?_, rfl, fun bs => rfl, rfl, rfl⟩
  · intro y1 y2 mv
    simp [cleanMoviesFile, readCsvChunks, cleanMoviesChunks, movieChunkStep,
      movieDedupStage, movieRowFilters, movieFilters57, movieFixRuntime,
      movieFinalize, dedupFirst, dedupFirstAux, writeFile, writeChunksAux]
  · intro keep
    cases keep <;> rfl

/-! ### Claim C2: identifier uniqueness for single-id entities -/

theorem filterMap_map_sublist (g : α → Option β) (f : β → γ) (h : α → γ)
    (hgf : ∀ x y, g x = some y → f y = h x) :
    ∀ l : List α, ((l.filterMap g).map f).Sublist (l.map h) := by
  intro l
  induction l with
  | nil => simp
  | cons x xs ih =>
    cases hx : g x with
    | none => simp only [List.filterMap_cons, hx, List.map_cons]; exact ih.cons _
    | some y =>
      simp only [List.filterMap_cons, hx, List.map_cons, hgf x y hx]
      exact ih.cons₂ _

/-- The ids of a movies chunk's surviving rows form a sublist of the ids
`movieDedupStage` put into `seen_ids`. -/
theorem movieRowFilters_ids_sublist (yearMin yearMax : Int) (minVotes : ℚ)
    (s4 : List MovieIded) :
    ((movieRowFilters yearMin yearMax minVotes s4).map MovieRow.id).Sublist
      (s4.map MovieIded.idv) := by
  have h1 : ((movieFinalize yearMin yearMax (movieFilters57 minVotes s4)).map
      MovieRow.id).Sublist ((movieFilters57 minVotes s4).map MovieIded.idv) := by
    apply filterMap_map_sublist
    intro x y hxy
    cases hry : x.release_year with
    | none => simp [hry] at hxy
    | some yv =>
      simp only [hry] at hxy
      by_cases hb : yearMin ≤ yv ∧ yv ≤ yearMax
      · simp only [hb, if_pos] at hxy
        cases hxy
        rfl
      · simp [hb] at hxy
  have h2 : ((movieFilters57 minVotes s4).map MovieIded.idv).Sublist
      (s4.map MovieIded.idv) := by
    unfold movieFilters57
    have hfix : (movieFixRuntime s4).map MovieIded.idv = s4.map MovieIded.idv := by
      unfold movieFixRuntime
      rw [List.map_map]
      rfl
    by_cases hmv : 0 < minVotes
    · simp only [hmv, if_pos]
      refine List.Sublist.trans (List.Sublist.map _ (List.filter_sublist _)) ?_
      refine List.Sublist.trans (List.Sublist.map _ (List.filter_sublist _)) ?_
      refine List.Sublist.trans (List.Sublist.map _ (List.filter_sublist _)) ?_
      rw [hfix]
    · simp only [hmv, if_neg]
      refine List.Sublist.trans (List.Sublist.map _ (List.filter_sublist _)) ?_
      refine List.Sublist.trans (List.Sublist.map _ (List.filter_sublist _)) ?_
      rw [hfix]
  unfold movieRowFilters
  exact h1.trans h2

/-- Ids entering `seen_ids` in one chunk are duplicate-free and disjoint
from the previous `seen_ids`. -/
theorem movieDedupStage_ids (seen : List Int) (c : List MovieRaw) :
    ((movieDedupStage seen c).1.map MovieIded.idv).Nodup ∧
      (∀ i ∈ (movieDedupStage seen c).1.map MovieIded.idv, i ∉ seen) ∧
      (movieDedupStage seen c).2 = seen ++ (movieDedupStage seen c).1.map MovieIded.idv := by
  refine ⟨?_, ?_, rfl⟩
  all_goals unfold movieDedupStage
  · have h3 : ((dedupFirst (fun r : MovieIded => r.idv)
        ((c.filterMap fun r =>
          match r.id with
          | some i => some (⟨r, i⟩ : MovieIded)
          | none => none).filter fun r => r.title.isSome)).map
        (fun r : MovieIded => r.idv)).Nodup :=
      dedupFirst_key_nodup _ _
    exact ((List.filter_sublist _).map _).nodup h3
  · intro i hi
    obtain ⟨r, hr, hri⟩ := List.mem_map.mp hi
    have := List.of_mem_filter hr
    simp only [decide_not] at this
    subst hri
    simpa using this

/-- Cross-chunk invariant of `clean_movies`: the emitted ids are
duplicate-free and avoid the ids already seen. -/
theorem cleanMoviesChunks_invariant (y1 y2 : Int) (mv : ℚ) :
    ∀ (chunks : List (List MovieRaw)) (seen : List Int),
      ((cleanMoviesChunks y1 y2 mv chunks seen).flatten.map MovieRow.id).Nodup ∧
        ∀ i ∈ (cleanMoviesChunks y1 y2 mv chunks seen).flatten.map MovieRow.id,
          i ∉ seen := by
  intro chunks
  induction chunks with
  | nil => intro seen; simp [cleanMoviesChunks]
  | cons c cs ih =>
    intro seen
    obtain ⟨hnd, hnotseen, hseen2⟩ := movieDedupStage_ids seen c
    have hout : ((movieRowFilters y1 y2 mv (movieDedupStage seen c).1).map
        MovieRow.id).Sublist ((movieDedupStage seen c).1.map MovieIded.idv) :=
      movieRowFilters_ids_sublist y1 y2 mv _
    have houtsub := hout.subset
    obtain ⟨ihnd, ihnot⟩ := ih (movieDedupStage seen c).2
    constructor
    · simp only [cleanMoviesChunks, movieChunkStep, List.flatten_cons,
        List.map_append]
      rw [List.nodup_append]
      refine ⟨hout.nodup hnd, ihnd, ?_⟩
      intro i hi hj
      have hin2 : i ∈ (movieDedupStage seen c).2 := by
        rw [hseen2]
        exact List.mem_append_right _ (houtsub hi)
      exact ihnot i hj hin2
    · intro i hi
      simp only [cleanMoviesChunks, movieChunkStep, List.flatten_cons,
        List.map_append, List.mem_append] at hi
      rcases hi with hi | hi
      · exact hnotseen i (houtsub hi)
      · intro hc
        exact ihnot i hi (by rw [hseen2]; exact List.mem_append_left _ hc)

/-- The float id `3.4`, as `pd.to_numeric` coerces the text `3.4`. -/
def kwIdA : ℚ := ⟨17, 5, by norm_num, by norm_num⟩

/-- The float id `3.5`, as `pd.to_numeric` coerces the text `3.5`. -/
def kwIdB : ℚ := ⟨7, 2, by norm_num, by norm_num⟩

/-- C2 counterexample: `clean_keywords` deduplicates the float-coerced ids
and truncates with `astype(int)` only afterwards, so the distinct
fractional ids `3.4` and `3.5` both survive the dedup and the output holds
two rows with the same integer key `3`. -/
theorem keywords_truncation_shared_key :
    clean_keywords [⟨some kwIdA, none⟩, ⟨some kwIdB, none⟩] =
      [⟨3, ['[', ']']⟩, ⟨3, ['[', ']']⟩] ∧
    ¬ ((clean_keywords [⟨some kwIdA, none⟩, ⟨some kwIdB, none⟩]).map
        KeywordRow.id).Nodup :=
  ⟨by decide, by decide⟩

theorem mem_dedupFirstAux [DecidableEq κ] (key : α → κ) :
    ∀ (l : List α) (seen : List κ) (x : α), x ∈ dedupFirstAux key l seen → x ∈ l := by
  intro l
  induction l with
  | nil => intro seen x h; simp [dedupFirstAux] at h
  | cons z zs ih =>
    intro seen x h
    by_cases hz : key z ∈ seen
    · simp only [dedupFirstAux, hz, if_true] at h
      exact List.mem_cons_of_mem _ (ih _ _ h)
    · simp only [dedupFirstAux, hz, if_false, List.mem_cons] at h
      rcases h with rfl | h
      · exact List.mem_cons_self _ _
      · exact List.mem_cons_of_mem _ (ih _ _ h)

theorem astypeInt_den_one (q : ℚ) (h : q.den = 1) : astypeInt q = q.num := by
  have h1 : (q.num : ℚ) = q := by
    have h2 := Rat.num_div_den q
    rw [h] at h2
    simpa using h2
  unfold astypeInt
  by_cases h0 : 0 ≤ q
  · rw [if_pos h0, ← h1, Int.floor_intCast]
    simp
  · rw [if_neg h0, ← h1, Int.ceil_intCast]
    simp

/-- C2 (amended).  For every input, movies (even chunked, with duplicates
scattered across chunks), links and credits have normalized outputs with no
two rows sharing the single-id key.  For keywords the dedup runs on the
float-coerced ids before the `astype(int)` truncation: the float keys of
the surviving rows are pairwise distinct, and the integer keys of the
written output are pairwise distinct provided every coerced id is integral;
distinct fractional ids may truncate to a shared integer key (see the
counterexample). -/
theorem identifier_uniqueness_amended :
    (∀ (yearMin yearMax : Int) (minVotes : ℚ) (chunks : List (List MovieRaw)),
        ((clean_movies yearMin yearMax minVotes chunks).map MovieRow.id).Nodup) ∧
    (∀ (keepNullTmdb : Bool) (df : List LinkRaw),
        ((clean_links keepNullTmdb df).map LinkRow.movieId).Nodup) ∧
    (∀ df : List KeywordRaw,
        ((keywordsDeduped df).map Prod.fst).Nodup ∧
        ((df.all fun r =>
            match r.id with
            | some q => q.den == 1
            | none => true) = true →
          ((clean_keywords df).map KeywordRow.id).Nodup)) ∧
    (∀ df : List CreditRaw,
        ((clean_credits df).map CreditOut.id).Nodup) := by
  refine ⟨?_, ?_, ?_, ?_⟩
  · intro y1 y2 mv chunks
    exact (cleanMoviesChunks_invariant y1 y2 mv chunks []).1
  · intro keepNull df
    exact dedupFirst_key_nodup _ _
  · intro df
    have hflo : ((keywordsDeduped df).map Prod.fst).Nodup := by
      unfold keywordsDeduped
      exact dedupFirst_key_nodup _ _
    refine ⟨hflo, fun hall => ?_⟩
    have hden : ∀ q ∈ (keywordsDeduped df).map Prod.fst, q.den = 1 := by
      intro q hq
      rw [List.mem_map] at hq
      obtain ⟨p, hp, rfl⟩ := hq
      have hp2 : p ∈ df.filterMap (fun r =>
          match r.id with
          | some q2 => some (q2, r.keywords)
          | none => none) :=
        mem_dedupFirstAux _ _ _ _ hp
      rw [List.mem_filterMap] at hp2
      obtain ⟨r, hr, hfr⟩ := hp2
      cases hid : r.id with
      | none =>
        rw [hid] at hfr
        exact Option.noConfusion hfr
      | some q2 =>
        rw [hid] at hfr
        injection hfr with hfr2
        have hall2 := List.all_eq_true.mp hall r hr
        rw [hid] at hall2
        have hd2 : q2.den = 1 := by simpa using hall2
        rw [← hfr2]
        exact hd2
    have hmap : (clean_keywords df).map KeywordRow.id =
        ((keywordsDeduped df).map Prod.fst).map astypeInt := by
      unfold clean_keywords
      rw [List.map_map, List.map_map]
      rfl
    rw [hmap]
    refine List.Nodup.map_on ?_ hflo
    intro a ha b hb hab
    have hda := hden a ha
    have hdb := hden b hb
    rw [astypeInt_den_one a hda, astypeInt_den_one b hdb] at hab
    exact Rat.ext hab (hda.trans hdb.symm)
  · intro df
    have h := dedupFirst_key_nodup (fun r : CreditRow => r.id)
      (isort creditLe (creditsParsed df))
    unfold clean_credits creditsDedup
    rw [List.map_map]
    exact h

/-- Instance check for the amended uniqueness: a keywords input with the
integral float ids `3`, `7`, `3` satisfies the integrality condition and
its cleaned output's integer keys are pairwise distinct. -/
theorem identifier_uniqueness_amended_witness :
    ((([⟨some 3, none⟩, ⟨some 7, none⟩, ⟨some 3, none⟩] : List KeywordRaw).all
        fun r =>
          match r.id with
          | some q => q.den == 1
          | none => true) = true) ∧
    ((clean_keywords
        [⟨some 3, none⟩, ⟨some 7, none⟩, ⟨some 3, none⟩]).map
      KeywordRow.id).Nodup :=
  ⟨by decide,
   (identifier_uniqueness_amended.2.2.1
      [⟨some 3, none⟩, ⟨some 7, none⟩, ⟨some 3, none⟩]).2 (by decide)⟩

/-! ### Claim C5: range invariants -/

theorem mem_insSorted (le : α → α → Bool) (y : α) :
    ∀ l x, x ∈ insSorted le y l ↔ x = y ∨ x ∈ l := by
  intro l
  induction l with
  | nil => intro x; simp [insSorted]
  | cons z zs ih =>
    intro x
    unfold insSorted
    by_cases h : le y z
    · simp [h]
    · rw [if_neg h]
      simp only [List.mem_cons, ih x]
      tauto

theorem mem_isort (le : α → α → Bool) :
    ∀ l x, x ∈ isort le l ↔ x ∈ l := by
  intro l
  induction l with
  | nil => intro x; simp [isort]
  | cons z zs ih =>
    intro x
    simp [isort, mem_insSorted, ih]

theorem mem_dedupLast [DecidableEq κ] (key : α → κ) :
    ∀ (l : List α) (x : α), x ∈ dedupLast key l → x ∈ l := by
  intro l
  induction l with
  | nil => intro x h; simp [dedupLast] at h
  | cons z zs ih =>
    intro x h
    by_cases hz : key z ∈ zs.map key
    · simp only [dedupLast, hz, if_true] at h
      exact List.mem_cons_of_mem _ (ih _ h)
    · simp only [dedupLast, hz, if_false, List.mem_cons] at h
      rcases h with rfl | h
      · exact List.mem_cons_self _ _
      · exact List.mem_cons_of_mem _ (ih _ h)

theorem mem_crossChunk (keep : KeepPolicy) :
    ∀ (l : List RatingRow) (m : List ((Int × Int) × Int)) (r : RatingRow),
      r ∈ (crossChunk keep l m).1 → r ∈ l := by
  intro l
  induction l with
  | nil => intro m r h; cases keep <;> simp [crossChunk] at h
  | cons z zs ih =>
    intro m r h
    cases keep with
    | all => simpa [crossChunk] using h
    | last =>
      by_cases hz : tsNs z ≥ lookup0 m (rkey z)
      · simp only [crossChunk, hz, if_true, List.mem_cons] at h
        rcases h with rfl | h
        · exact List.mem_cons_self _ _
        · exact List.mem_cons_of_mem _ (ih _ _ h)
      · simp only [crossChunk, hz, if_false] at h
        exact List.mem_cons_of_mem _ (ih _ _ h)
    | first =>
      by_cases hz : hasKey m (rkey z)
      · simp only [crossChunk, hz, if_true] at h
        exact List.mem_cons_of_mem _ (ih _ _ h)
      · simp only [crossChunk, hz, Bool.false_eq_true, if_false, List.mem_cons] at h
        rcases h with rfl | h
        · exact List.mem_cons_self _ _
        · exact List.mem_cons_of_mem _ (ih _ _ h)

theorem mem_ratingsTyped (df : List RatingRaw) (r : RatingRow)
    (h : r ∈ ratingsTyped df) : 0 ≤ r.rating ∧ r.rating ≤ 10 := by
  unfold ratingsTyped at h
  obtain ⟨x, _, hx⟩ := List.mem_filterMap.mp h
  cases hu : x.userId <;> cases hm : x.movieId <;> cases hq : x.rating <;>
    cases ht : x.timestamp <;> simp only [hu, hm, hq, ht] at hx
  all_goals try exact absurd hx (by exact Option.noConfusion)
  split at hx
  · cases hx
    rename_i hb
    exact hb
  · exact absurd hx (by exact Option.noConfusion)

theorem mem_ratingsChunkStep (keep : KeepPolicy) (m : List ((Int × Int) × Int))
    (df : List RatingRaw) (r : RatingRow)
    (h : r ∈ (ratingsChunkStep keep m df).1) : r ∈ ratingsTyped df := by
  unfold ratingsChunkStep at h
  cases keep with
  | all => simpa using h
  | last =>
    have h1 := mem_crossChunk _ _ _ _ h
    have h2 := mem_dedupLast rkey _ _ h1
    exact (mem_isort ratingLe _ _).mp h2
  | first =>
    have h1 := mem_crossChunk _ _ _ _ h
    have h2 := mem_dedupFirstAux rkey _ [] _ h1
    exact (mem_isort ratingLe _ _).mp h2

theorem mem_movieFixRuntime (s4 : List MovieIded) (x : MovieIded)
    (hx : x ∈ movieFixRuntime s4) :
    x.runtime = none ∨ ∃ q, x.runtime = some q ∧ 0 ≤ q := by
  unfold movieFixRuntime at hx
  obtain ⟨x0, _, rfl⟩ := List.mem_map.mp hx
  cases hq : x0.runtime with
  | none => left; simp [hq]
  | some q =>
    by_cases hneg : q < 0
    · left; simp [hq, hneg]
    · right; exact ⟨q, by simp [hq, hneg], by linarith⟩

theorem mem_movieFilters57 (minVotes : ℚ) (s4 : List MovieIded) (x : MovieIded)
    (hx : x ∈ movieFilters57 minVotes s4) :
    (x.vote_average = none ∨ ∃ q, x.vote_average = some q ∧ 0 ≤ q ∧ q ≤ 10) ∧
      (x.runtime = none ∨ ∃ q, x.runtime = some q ∧ 0 ≤ q ∧ q ≤ MAX_RUNTIME) := by
  unfold movieFilters57 at hx
  have hx6 : x ∈ ((movieFixRuntime s4).filter fun r =>
      match r.runtime with
      | some q => decide (q ≤ MAX_RUNTIME)
      | none => true).filter fun r =>
      match r.vote_average with
      | some q => 0 ≤ q ∧ q ≤ 10
      | none => True := by
    by_cases hmv : 0 < minVotes
    · rw [if_pos hmv] at hx
      exact List.mem_of_mem_filter hx
    · rw [if_neg hmv] at hx
      exact hx
  have hx5 : x ∈ (movieFixRuntime s4).filter fun r =>
      match r.runtime with
      | some q => decide (q ≤ MAX_RUNTIME)
      | none => true := List.mem_of_mem_filter hx6
  have hp6 := List.of_mem_filter hx6
  have hp5 := List.of_mem_filter hx5
  have hbase := mem_movieFixRuntime s4 x (List.mem_of_mem_filter hx5)
  constructor
  · cases hva : x.vote_average with
    | none => exact Or.inl rfl
    | some q =>
      right
      refine ⟨q, rfl, ?_⟩
      rw [hva] at hp6
      exact of_decide_eq_true hp6
  · rcases hbase with hnone | ⟨q, hq, hq0⟩
    · exact Or.inl hnone
    · right
      refine ⟨q, hq, hq0, ?_⟩
      rw [hq] at hp5
      exact of_decide_eq_true hp5

theorem mem_movieRowFilters_ranges (yearMin yearMax : Int) (minVotes : ℚ)
    (s4 : List MovieIded) (r : MovieRow)
    (hr : r ∈ movieRowFilters yearMin yearMax minVotes s4) :
    (r.vote_average = none ∨ ∃ q, r.vote_average = some q ∧ 0 ≤ q ∧ q ≤ 10) ∧
      (r.runtime = none ∨ ∃ q, r.runtime = some q ∧ 0 ≤ q ∧ q ≤ MAX_RUNTIME) := by
  unfold movieRowFilters movieFinalize at hr
  obtain ⟨x, hx, hmk⟩ := List.mem_filterMap.mp hr
  have hranges := mem_movieFilters57 minVotes s4 x hx
  cases hry : x.release_year with
  | none =>
    simp only [hry] at hmk
    exact Option.noConfusion hmk
  | some y =>
    simp only [hry] at hmk
    by_cases hb : yearMin ≤ y ∧ y ≤ yearMax
    · rw [if_pos hb] at hmk
      cases hmk
      exact hranges
    · rw [if_neg hb] at hmk
      exact absurd hmk (by exact Option.noConfusion)

theorem mem_clean_movies (yearMin yearMax : Int) (minVotes : ℚ) :
    ∀ (chunks : List (List MovieRaw)) (seen : List Int) (r : MovieRow),
      r ∈ (cleanMoviesChunks yearMin yearMax minVotes chunks seen).flatten →
      ∃ s4 : List MovieIded, r ∈ movieRowFilters yearMin yearMax minVotes s4 := by
  intro chunks
  induction chunks with
  | nil => intro seen r h; simp [cleanMoviesChunks] at h
  | cons c cs ih =>
    intro seen r h
    simp only [cleanMoviesChunks, movieChunkStep, List.flatten_cons,
      List.mem_append] at h
    rcases h with h | h
    · exact ⟨(movieDedupStage seen c).1, h⟩
    · exact ih _ r h

theorem mem_clean_ratings (keep : KeepPolicy) :
    ∀ (chunks : List (List RatingRaw)) (m : List ((Int × Int) × Int))
      (r : RatingRow),
      r ∈ (cleanRatingsChunks keep chunks m).flatten →
      0 ≤ r.rating ∧ r.rating ≤ 10 := by
  intro chunks
  induction chunks with
  | nil => intro m r h; simp [cleanRatingsChunks] at h
  | cons c cs ih =>
    intro m r h
    simp only [cleanRatingsChunks, List.flatten_cons, List.mem_append] at h
    rcases h with h | h
    · exact mem_ratingsTyped c r (mem_ratingsChunkStep keep m c r h)
    · exact ih _ r h

/-- C5.  Every cleaned movies row has `vote_average` in `[0, 10]` or absent
and `runtime` in `[0, MAX_RUNTIME]` or absent; every cleaned ratings row and
every ratings document admitted by the loader has its rating in the declared
`[0, 10]` bound. -/
theorem range_invariants :
    (∀ (yearMin yearMax : Int) (minVotes : ℚ) (chunks : List (List MovieRaw))
        (r : MovieRow), r ∈ clean_movies yearMin yearMax minVotes chunks →
        (r.vote_average = none ∨ ∃ q, r.vote_average = some q ∧ 0 ≤ q ∧ q ≤ 10) ∧
          (r.runtime = none ∨ ∃ q, r.runtime = some q ∧ 0 ≤ q ∧ q ≤ MAX_RUNTIME)) ∧
    (∀ (keep : KeepPolicy) (chunks : List (List RatingRaw)) (r : RatingRow),
        r ∈ clean_ratings keep chunks → 0 ≤ r.rating ∧ r.rating ≤ 10) ∧
    (∀ (rows : List InsRatingRaw) (d : RatingDoc),
        d ∈ insertRatingsDocs rows → 0 ≤ d.rating ∧ d.rating ≤ 10) := by
  refine ⟨?_, ?_, ?_⟩
  · intro y1 y2 mv chunks r hr
    obtain ⟨s4, hs4⟩ := mem_clean_movies y1 y2 mv chunks [] r hr
    exact mem_movieRowFilters_ranges y1 y2 mv s4 r hs4
  · intro keep chunks r hr
    exact mem_clean_ratings keep chunks [] r hr
  · intro rows d hd
    unfold insertRatingsDocs at hd
    obtain ⟨x, _, hx⟩ := List.mem_filterMap.mp hd
    cases hu : x.userId <;> cases hm : x.movieId <;> cases hq : x.rating <;>
      simp only [hu, hm, hq] at hx
    all_goals try exact absurd hx (by exact Option.noConfusion)
    split at hx
    · cases hx
      rename_i hb
      exact hb
    · exact absurd hx (by exact Option.noConfusion)

/-- A concrete raw movies row for the C5 witness. -/
def mraw0 : MovieRaw :=
  { id := some 7, title := some ['a'], budget := none, revenue := none
    runtime := some 100, vote_average := some 7, vote_count := some 1
    popularity := none, release_year := some 2000, genres := none
    production_companies := none, production_countries := none
    spoken_languages := none, belongs_to_collection := none }

/-- Witness for C5 at a concrete movies row, ratings row and document. -/
theorem range_invariants_witness :
    (∃ r : MovieRow, r ∈ clean_movies 1888 2100 0 [[mraw0]] ∧
      ((r.vote_average = none ∨ ∃ q, r.vote_average = some q ∧ 0 ≤ q ∧ q ≤ 10) ∧
        (r.runtime = none ∨ ∃ q, r.runtime = some q ∧ 0 ≤ q ∧ q ≤ MAX_RUNTIME))) ∧
    (∃ r : RatingRow, r ∈ clean_ratings .last [[⟨some 1, some 10, some 4, some 100⟩]] ∧
      0 ≤ r.rating ∧ r.rating ≤ 10) ∧
    (∃ d : RatingDoc, d ∈ insertRatingsDocs [⟨some 1, some 10, some 4, some 100⟩] ∧
      0 ≤ d.rating ∧ d.rating ≤ 10) := by
  refine ⟨⟨⟨7, ['a'], none, none, some 100, some 7, some 1, none, 2000,
      ['[', ']'], ['[', ']'], ['[', ']'], ['[', ']'], []⟩, ?_, ?_⟩,
    ⟨⟨1, 10, 4, 100⟩, ?_, ?_⟩, ⟨⟨1, 10, 4, some 100⟩, ?_, ?_⟩⟩
  · decide
  · exact (range_invariants.1 1888 2100 0 [[mraw0]] _ (by decide))
  · decide
  · exact (range_invariants.2.1 .last [[⟨some 1, some 10, some 4, some 100⟩]] _ (by decide))
  · decide
  · exact (range_invariants.2.2 [⟨some 1, some 10, some 4, some 100⟩] _ (by decide))

/-! ### Claim C1: ratings temporal retention -/

theorem hasKey_setKey (m : List ((Int × Int) × Int)) (k : Int × Int) (ts : Int)
    (k2 : Int × Int) :
    hasKey (setKey m k ts) k2 = true ↔ k = k2 ∨ hasKey m k2 = true := by
  unfold hasKey setKey
  by_cases h : k = k2
  · subst h
    simp [List.find?_cons]
  · rw [List.find?_cons]
    simp only [h]
    simp [h]

theorem crossChunk_first (l : List RatingRow) :
    ∀ m : List ((Int × Int) × Int),
      (((crossChunk .first l m).1.map rkey).Nodup) ∧
        (∀ r ∈ (crossChunk .first l m).1, hasKey m (rkey r) = false) ∧
        (∀ k, hasKey m k = true → hasKey (crossChunk .first l m).2 k = true) ∧
        (∀ r ∈ (crossChunk .first l m).1,
          hasKey (crossChunk .first l m).2 (rkey r) = true) := by
  induction l with
  | nil => intro m; simp [crossChunk]
  | cons z zs ih =>
    intro m
    by_cases hz : hasKey m (rkey z)
    · have := ih m
      simp only [crossChunk, hz, if_true]
      refine ⟨this.1, this.2.1, this.2.2.1, this.2.2.2⟩
    · have hind := ih (setKey m (rkey z) (tsNs z))
      have hzf : hasKey m (rkey z) = false := by
        cases hkz : hasKey m (rkey z)
        · rfl
        · exact absurd hkz hz
      simp only [crossChunk, hzf, Bool.false_eq_true, if_false]
      refine ⟨?_, ?_, ?_, ?_⟩
      · simp only [List.map_cons, List.nodup_cons]
        constructor
        · intro hc
          obtain ⟨r, hr, hrk⟩ := List.mem_map.mp hc
          have := hind.2.1 r hr
          rw [hrk, (hasKey_setKey m (rkey z) (tsNs z) (rkey z)).mpr (Or.inl rfl)] at this
          exact Bool.noConfusion this
        · exact hind.1
      · intro r hr
        rcases List.mem_cons.mp hr with rfl | hr
        · exact hzf
        · have hfalse := hind.2.1 r hr
          cases hmem : hasKey m (rkey r)
          · rfl
          · have htrue := (hasKey_setKey m (rkey z) (tsNs z) (rkey r)).mpr (Or.inr hmem)
            rw [htrue] at hfalse
            exact Bool.noConfusion hfalse
      · intro k hk
        exact hind.2.2.1 k ((hasKey_setKey m (rkey z) (tsNs z) k).mpr (Or.inr hk))
      · intro r hr
        rcases List.mem_cons.mp hr with rfl | hr
        · exact hind.2.2.1 (rkey r)
            ((hasKey_setKey m (rkey r) (tsNs r) (rkey r)).mpr (Or.inl rfl))
        · exact hind.2.2.2 r hr

theorem crossChunk_fst_sublist (keep : KeepPolicy) :
    ∀ (l : List RatingRow) (m : List ((Int × Int) × Int)),
      (crossChunk keep l m).1.Sublist l := by
  intro l
  induction l with
  | nil => intro m; cases keep <;> simp [crossChunk]
  | cons z zs ih =>
    intro m
    cases keep with
    | all => simp [crossChunk]
    | last =>
      by_cases hz : tsNs z ≥ lookup0 m (rkey z)
      · simp only [crossChunk, hz, if_true]
        exact (ih _).cons₂ _
      · simp only [crossChunk, hz, if_false]
        exact (ih _).cons _
    | first =>
      by_cases hz : hasKey m (rkey z)
      · simp only [crossChunk, hz, if_true]
        exact (ih _).cons _
      · simp only [crossChunk, hz, Bool.false_eq_true, if_false]
        exact (ih _).cons₂ _

theorem ratingsChunkStep_last_nodup (m : List ((Int × Int) × Int))
    (df : List RatingRaw) :
    (((ratingsChunkStep .last m df).1).map rkey).Nodup := by
  unfold ratingsChunkStep
  have hd := (dedupLast_key_nodup rkey (isort ratingLe (ratingsTyped df))).1
  exact ((crossChunk_fst_sublist .last _ m).map rkey).nodup hd

theorem cleanRatingsChunks_first_invariant :
    ∀ (chunks : List (List RatingRaw)) (m : List ((Int × Int) × Int)),
      (((cleanRatingsChunks .first chunks m).flatten.map rkey).Nodup) ∧
        ∀ r ∈ (cleanRatingsChunks .first chunks m).flatten,
          hasKey m (rkey r) = false := by
  intro chunks
  induction chunks with
  | nil => intro m; simp [cleanRatingsChunks]
  | cons c cs ih =>
    intro m
    have hcross := crossChunk_first
      (dedupFirst rkey (isort ratingLe (ratingsTyped c))) m
    have hihm := ih (ratingsChunkStep .first m c).2
    have hstep1 : (ratingsChunkStep .first m c).1 =
        (crossChunk .first (dedupFirst rkey (isort ratingLe (ratingsTyped c))) m).1 := rfl
    have hstep2 : (ratingsChunkStep .first m c).2 =
        (crossChunk .first (dedupFirst rkey (isort ratingLe (ratingsTyped c))) m).2 := rfl
    constructor
    · simp only [cleanRatingsChunks, List.flatten_cons, List.map_append]
      rw [List.nodup_append]
      refine ⟨by rw [hstep1]; exact hcross.1, hihm.1, ?_⟩
      intro k hk1 hk2
      obtain ⟨r1, hr1, hr1k⟩ := List.mem_map.mp hk1
      obtain ⟨r2, hr2, hr2k⟩ := List.mem_map.mp hk2
      have hin : hasKey (ratingsChunkStep .first m c).2 (rkey r1) = true := by
        rw [hstep2]
        exact hcross.2.2.2 r1 (by rw [← hstep1]; exact hr1)
      have hout : hasKey (ratingsChunkStep .first m c).2 (rkey r2) = false :=
        hihm.2 r2 hr2
      rw [hr1k, ← hr2k] at hin
      rw [hin] at hout
      exact Bool.noConfusion hout
    · intro r hr
      simp only [cleanRatingsChunks, List.flatten_cons, List.mem_append] at hr
      rcases hr with hr | hr
      · exact hcross.2.1 r (by rw [← hstep1]; exact hr)
      · have h2 := hihm.2 r hr
        cases hmem : hasKey m (rkey r)
        · rfl
        · exfalso
          have htrue := hcross.2.2.1 (rkey r) hmem
          rw [← hstep2] at htrue
          rw [htrue] at h2
          exact Bool.noConfusion h2

/-- The two-chunk fixture of the claim: the same `(user, movie)` pair rated
at timestamps 100 and 200, arriving in different chunks. -/
def exRatingChunks : List (List RatingRaw) :=
  [[⟨some 1, some 10, some 4, some 100⟩], [⟨some 1, some 10, some 4, some 200⟩]]

/-- C1 counterexample.  With policy `last` the t=100 row was already written
with the first chunk and the t=200 row is appended with the second: the
cleaned output holds both rows, so it neither "contains only the t=200 row"
nor "at most one row per (user, movie) pair". -/
theorem ratings_last_residual_duplicate :
    clean_ratings .last exRatingChunks =
      [⟨1, 10, 4, 100⟩, ⟨1, 10, 4, 200⟩] ∧
    clean_ratings .last exRatingChunks ≠ [⟨1, 10, 4, 200⟩] ∧
    ¬ ((clean_ratings .last exRatingChunks).map rkey).Nodup := by
  refine ⟨by decide, by decide, by decide⟩

/-- C1 (amended).  With policy `first` the t=100 row alone survives and in
general the output has at most one row per (user, movie) pair; with policy
`last` the t=200 row survives but the t=100 row written with the earlier
chunk remains (residual cross-chunk duplicates), and the per-pair uniqueness
holds only within each chunk's write. -/
theorem ratings_retention_amended :
    (∀ chunks : List (List RatingRaw),
        ((clean_ratings .first chunks).map rkey).Nodup) ∧
    clean_ratings .first exRatingChunks = [⟨1, 10, 4, 100⟩] ∧
    clean_ratings .last exRatingChunks =
      [⟨1, 10, 4, 100⟩, ⟨1, 10, 4, 200⟩] ∧
    (∀ (m : List ((Int × Int) × Int)) (df : List RatingRaw),
        (((ratingsChunkStep .last m df).1).map rkey).Nodup) := by
  refine ⟨?_, by decide, by decide, ratingsChunkStep_last_nodup⟩
  intro chunks
  exact (cleanRatingsChunks_first_invariant chunks []).1

/-! ### Claim C4: credits coverage tie-break -/

theorem insSorted_all_le (le : α → α → Bool) (x : α) :
    ∀ l, (∀ z ∈ l, le x z = true) → insSorted le x l = x :: l := by
  intro l h
  cases l with
  | nil => rfl
  | cons z zs => rw [insSorted, if_pos (h z (List.mem_cons_self _ _))]

theorem insSorted_pairwise (le : α → α → Bool)
    (htrans : ∀ a b c, le a b = true → le b c = true → le a c = true)
    (htot : ∀ a b, le a b = true ∨ le b a = true) (x : α) :
    ∀ l, List.Pairwise (fun a b => le a b = true) l →
      List.Pairwise (fun a b => le a b = true) (insSorted le x l) := by
  intro l
  induction l with
  | nil => intro _; simp [insSorted]
  | cons y ys ih =>
    intro hs
    rw [List.pairwise_cons] at hs
    obtain ⟨hy, hys⟩ := hs
    by_cases hxy : le x y
    · rw [insSorted, if_pos hxy, List.pairwise_cons]
      refine ⟨?_, List.pairwise_cons.mpr ⟨hy, hys⟩⟩
      intro z hz
      rcases List.mem_cons.mp hz with rfl | hz
      · exact hxy
      · exact htrans x y z hxy (hy z hz)
    · rw [insSorted, if_neg hxy, List.pairwise_cons]
      refine ⟨?_, ih hys⟩
      intro z hz
      rcases (mem_insSorted le x ys z).mp hz with rfl | hz
      · rcases htot z y with h | h
        · exact absurd h hxy
        · exact h
      · exact hy z hz

theorem isort_pairwise (le : α → α → Bool)
    (htrans : ∀ a b c, le a b = true → le b c = true → le a c = true)
    (htot : ∀ a b, le a b = true ∨ le b a = true) :
    ∀ l : List α, List.Pairwise (fun a b => le a b = true) (isort le l) := by
  intro l
  induction l with
  | nil => simp [isort]
  | cons x xs ih => exact insSorted_pairwise le htrans htot x _ ih

theorem filter_insSorted (le : α → α → Bool)
    (htrans : ∀ a b c, le a b = true → le b c = true → le a c = true)
    (p : α → Bool) (x : α) :
    ∀ l, List.Pairwise (fun a b => le a b = true) l →
      (insSorted le x l).filter p =
        if p x then insSorted le x (l.filter p) else l.filter p := by
  intro l
  induction l with
  | nil =>
    intro _
    by_cases hp : p x <;> simp [insSorted, hp]
  | cons y ys ih =>
    intro hs
    rw [List.pairwise_cons] at hs
    obtain ⟨hy, hys⟩ := hs
    by_cases hxy : le x y
    · rw [insSorted, if_pos hxy]
      by_cases hp : p x
      · rw [if_pos hp]
        have hall : ∀ z ∈ (y :: ys).filter p, le x z = true := by
          intro z hz
          have hz2 := List.mem_of_mem_filter hz
          rcases List.mem_cons.mp hz2 with rfl | hz2
          · exact hxy
          · exact htrans x y z hxy (hy z hz2)
        rw [insSorted_all_le le x _ hall, List.filter_cons, if_pos hp]
      · rw [if_neg hp, List.filter_cons, if_neg hp]
    · rw [insSorted, if_neg hxy]
      rw [List.filter_cons, List.filter_cons]
      by_cases hpy : p y
      · rw [if_pos hpy, if_pos hpy, ih hys]
        by_cases hp : p x
        · rw [if_pos hp, if_pos hp, insSorted, if_neg hxy]
        · rw [if_neg hp, if_neg hp]
      · rw [if_neg hpy, if_neg hpy, ih hys]

theorem filter_isort (le : α → α → Bool)
    (htrans : ∀ a b c, le a b = true → le b c = true → le a c = true)
    (htot : ∀ a b, le a b = true ∨ le b a = true) (p : α → Bool) :
    ∀ l : List α, (isort le l).filter p = isort le (l.filter p) := by
  intro l
  induction l with
  | nil => rfl
  | cons x xs ih =>
    show (insSorted le x (isort le xs)).filter p = isort le ((x :: xs).filter p)
    rw [filter_insSorted le htrans p x _ (isort_pairwise le htrans htot xs),
      List.filter_cons]
    by_cases hp : p x
    · rw [if_pos hp, if_pos hp, ih]
      rfl
    · rw [if_neg hp, if_neg hp, ih]

theorem length_insSorted (le : α → α → Bool) (x : α) :
    ∀ l, (insSorted le x l).length = l.length + 1 := by
  intro l
  induction l with
  | nil => rfl
  | cons y ys ih =>
    unfold insSorted
    by_cases h : le x y
    · rw [if_pos h]; rfl
    · rw [if_neg h, List.length_cons, ih]; rfl

theorem length_isort (le : α → α → Bool) :
    ∀ l : List α, (isort le l).length = l.length := by
  intro l
  induction l with
  | nil => rfl
  | cons x xs ih =>
    show (insSorted le x (isort le xs)).length = _
    rw [length_insSorted, ih]
    rfl

theorem head?_insSorted (le : α → α → Bool) (x : α) (l : List α) :
    (insSorted le x l).head? =
      some (match l.head? with
            | none => x
            | some h => if le x h then x else h) := by
  cases l with
  | nil => rfl
  | cons y ys =>
    unfold insSorted
    by_cases h : le x y
    · rw [if_pos h]; simp [h]
    · rw [if_neg h]; simp [h]

/-- The spec's selection rule, stated directly from its words: "among rows
sharing a key, retain the one whose combined list lengths (cast + crew) is
greatest; ties broken by original input order (earliest wins)".  Scanning
left to right, a row is retained iff its score is at least every later
row's score. -/
def argmaxFirst (f : α → Nat) : List α → Option α
  | [] => none
  | x :: xs =>
    match argmaxFirst f xs with
    | none => some x
    | some y => if f y ≤ f x then some x else some y

/-- The spec's credits tie-break, specialized to coverage. -/
def specBestByCoverage (l : List CreditRow) : Option CreditRow :=
  argmaxFirst coverage l

theorem creditLe_trans : ∀ a b c : CreditRow,
    creditLe a b = true → creditLe b c = true → creditLe a c = true := by
  intro a b c hab hbc
  simp only [creditLe, decide_eq_true_eq] at *
  omega

theorem creditLe_total : ∀ a b : CreditRow,
    creditLe a b = true ∨ creditLe b a = true := by
  intro a b
  simp only [creditLe, decide_eq_true_eq]
  omega

theorem head_isort_argmax (k : Int) :
    ∀ l : List CreditRow, (∀ r ∈ l, r.id = k) →
      (isort creditLe l).head? = argmaxFirst coverage l := by
  intro l
  induction l with
  | nil => intro _; rfl
  | cons x xs ih =>
    intro hids
    have hxs : ∀ r ∈ xs, r.id = k := fun r hr => hids r (List.mem_cons_of_mem _ hr)
    show (insSorted creditLe x (isort creditLe xs)).head? = _
    rw [head?_insSorted]
    cases hh : (isort creditLe xs).head? with
    | none =>
      have hnil : isort creditLe xs = [] := List.head?_eq_none_iff.mp hh
      have hxsnil : xs = [] := by
        have := length_isort creditLe xs
        rw [hnil] at this
        exact List.eq_nil_of_length_eq_zero this.symm
      subst hxsnil
      rfl
    | some h =>
      have hmem : h ∈ isort creditLe xs := List.mem_of_mem_head? (by rw [hh]; rfl)
      have hhk : h.id = k := hxs h ((mem_isort creditLe xs h).mp hmem)
      have harg : argmaxFirst coverage xs = some h := by
        rw [← ih hxs, hh]
      show some (if creditLe x h then x else h) = argmaxFirst coverage (x :: xs)
      unfold argmaxFirst
      rw [harg]
      have hle : creditLe x h = decide (coverage h ≤ coverage x) := by
        simp only [creditLe, hids x (List.mem_cons_self _ _), hhk]
        by_cases hc : coverage h ≤ coverage x <;> simp [hc]
      rw [hle]
      by_cases hc : coverage h ≤ coverage x
      · simp [hc]
      · simp [hc]

theorem dedupFirstAux_filter_key [DecidableEq κ] (key : α → κ) (k : κ) :
    ∀ (l : List α) (seen : List κ),
      (dedupFirstAux key l seen).filter (fun x => key x = k) =
        if k ∈ seen then [] else (l.filter (fun x => key x = k)).take 1 := by
  intro l
  induction l with
  | nil =>
    intro seen
    by_cases hk : k ∈ seen <;> simp [dedupFirstAux, hk]
  | cons x xs ih =>
    intro seen
    by_cases hx : key x ∈ seen
    · rw [show dedupFirstAux key (x :: xs) seen = dedupFirstAux key xs seen from by
        simp [dedupFirstAux, hx]]
      rw [ih seen]
      by_cases hks : k ∈ seen
      · rw [if_pos hks, if_pos hks]
      · have hk : ¬ key x = k := fun h => hks (h ▸ hx)
        rw [if_neg hks, if_neg hks, List.filter_cons, if_neg (by simpa using hk)]
    · rw [show dedupFirstAux key (x :: xs) seen =
          x :: dedupFirstAux key xs (key x :: seen) from by simp [dedupFirstAux, hx]]
      rw [List.filter_cons, ih (key x :: seen)]
      by_cases hk : key x = k
      · have hks : k ∉ seen := fun hc => hx (hk ▸ hc)
        rw [if_pos (by simpa using hk),
          if_pos (show k ∈ key x :: seen from by simp [hk]),
          if_neg hks, List.filter_cons, if_pos (by simpa using hk)]
        rfl
      · rw [if_neg (by simpa using hk)]
        have hmemiff : (k ∈ key x :: seen) ↔ k ∈ seen := by
          simp only [List.mem_cons]
          constructor
          · rintro (rfl | h)
            · exact absurd rfl hk
            · exact h
          · exact Or.inr
        by_cases hks : k ∈ seen
        · rw [if_pos (hmemiff.mpr hks), if_pos hks]
        · rw [if_neg (fun hc => hks (hmemiff.mp hc)), if_neg hks,
            List.filter_cons, if_neg (by simpa using hk)]

theorem take_one_eq_head_toList (l : List α) : l.take 1 = l.head?.toList := by
  cases l <;> rfl

theorem optionToList_map (f : α → β) (o : Option α) :
    o.toList.map f = (o.map f).toList := by
  cases o <;> rfl

/-- A credits fixture: same id, coverage 3 (cast `[1, 2]`, crew `[3]`). -/
def exCredLow : CreditRaw :=
  ⟨5, some ['[', '1', ',', ' ', '2', ']'], some ['[', '3', ']']⟩

/-- A credits fixture: same id, coverage 7 (cast `[1, 2, 3, 4]`,
crew `[5, 6, 7]`). -/
def exCredHigh : CreditRaw :=
  ⟨5, some ['[', '1', ',', ' ', '2', ',', ' ', '3', ',', ' ', '4', ']'],
    some ['[', '5', ',', ' ', '6', ',', ' ', '7', ']']⟩

/-- C4.  For every credits input and key, the cleaned output's rows with
that key are exactly the serialization of the spec's selection: the row of
greatest cast+crew coverage, earliest input position on ties.  In
particular, of two same-key rows with coverages 3 and 7 the coverage-7 row
survives. -/
theorem credits_coverage_tiebreak :
    (∀ (df : List CreditRaw) (k : Int),
        (clean_credits df).filter (fun r => r.id = k) =
          ((specBestByCoverage ((creditsParsed df).filter
              (fun r => r.id = k))).map creditSerialize).toList) ∧
    clean_credits [exCredLow, exCredHigh] =
      [⟨5, ['[', '1', ',', ' ', '2', ',', ' ', '3', ',', ' ', '4', ']'],
        ['[', '5', ',', ' ', '6', ',', ' ', '7', ']'], 7⟩] := by
  constructor
  · intro df k
    unfold clean_credits
    rw [List.filter_map]
    rw [show ((fun r : CreditOut => decide (r.id = k)) ∘ creditSerialize) =
        (fun r : CreditRow => decide (r.id = k)) from rfl]
    unfold creditsDedup dedupFirst
    rw [dedupFirstAux_filter_key (fun r : CreditRow => r.id) k _ []]
    rw [if_neg (List.not_mem_nil k)]
    rw [filter_isort creditLe creditLe_trans creditLe_total]
    rw [take_one_eq_head_toList]
    rw [head_isort_argmax k _ ?hids]
    case hids =>
      intro r hr
      have hdec := List.of_mem_filter hr
      exact of_decide_eq_true hdec
    rw [optionToList_map]
    rfl
  · decide

/-! ### Claim C8: nested-structure parsing round trip

Supporting notions: strings that use no quote or escape characters
(`strOk`), the values built from them (`qfV`), values whose canonical
encoding contains a double quote, i.e. with a string or a nonempty object
anywhere (`hasQV`), and the single-quoted serialization `sqEnc` (the
canonical encoding with `"` replaced by `'`, which is how the raw dataset
serializes nested structures when strings are quote-free). -/

/-- String content free of the double quote, single quote and backslash. -/
def strOk (s : List Char) : Bool :=
  s.all fun c => ¬ c = dqc ∧ ¬ c = sqc ∧ ¬ c = bsc

mutual

/-- Every string (content and object keys) in the value is `strOk`. -/
def qfV : Jv → Bool
  | .jnull => true
  | .jbool _ => true
  | .jnum _ => true
  | .jstr s => strOk s
  | .jarr xs => qfL xs
  | .jobj m => qfM m

/-- `qfV` over array elements. -/
def qfL : List Jv → Bool
  | [] => true
  | x :: xs => qfV x && qfL xs

/-- `qfV` over object members. -/
def qfM : List (List Char × Jv) → Bool
  | [] => true
  | (k, v) :: m => strOk k && qfV v && qfM m

end

mutual

/-- Does the canonical encoding contain a double quote: a string, or a
nonempty object, occurs somewhere in the value. -/
def hasQV : Jv → Bool
  | .jnull => false
  | .jbool _ => false
  | .jnum _ => false
  | .jstr _ => true
  | .jarr xs => hasQL xs
  | .jobj [] => false
  | .jobj (_ :: _) => true

/-- `hasQV` over array elements. -/
def hasQL : List Jv → Bool
  | [] => false
  | x :: xs => hasQV x || hasQL xs

end

/-- The single-quoted serialization: the canonical `json.dumps` text with
every double quote replaced by a single quote. -/
def sqEnc (v : Jv) : List Char := (encV v).map dqToSq

/-- Does a list of characters consist of whitespace only? -/
def wsOnly (l : List Char) : Bool := l.all isWs

/-- Does the text not start with a digit (so that a preceding number's
digit scan cannot swallow it)? -/
def ndStart : List Char → Bool
  | [] => true
  | c :: _ => !isDig c

/-! Character facts. -/

theorem digitCh_toNat (d : Nat) (h : d < 10) : (digitCh d).toNat = 48 + d := by
  interval_cases d <;> decide

theorem isDig_digitCh (d : Nat) (h : d < 10) : isDig (digitCh d) = true := by
  interval_cases d <;> decide

theorem isDig_char_cases (c : Char) (h : isDig c = true) :
    isWs c = false ∧ ¬ c = ']' ∧ ¬ c = '}' ∧ ¬ c = ',' ∧ ¬ c = sqc := by
  have hd := of_decide_eq_true h
  refine ⟨?_, ?_, ?_, ?_, ?_⟩
  · cases hws : isWs c
    · rfl
    · exfalso
      rcases of_decide_eq_true hws with rfl | rfl | rfl | rfl <;>
        exact absurd h (by decide)
  · rintro rfl; exact absurd h (by decide)
  · rintro rfl; exact absurd h (by decide)
  · rintro rfl; exact absurd h (by decide)
  · rintro rfl; exact absurd h (by decide)

/-! Decimal printing and scanning. -/

theorem natOfDigitsFrom_natDigitsAux :
    ∀ (fuel n : Nat) (acc : List Char), n < fuel →
      natOfDigitsFrom 0 (natDigitsAux fuel n acc) = natOfDigitsFrom n acc := by
  intro fuel
  induction fuel with
  | zero => intro n acc h; omega
  | succ fuel ih =>
    intro n acc h
    unfold natDigitsAux
    by_cases hn : n < 10
    · rw [if_pos hn]
      show natOfDigitsFrom (0 * 10 + 0) (digitCh n :: acc) = _
      simp only [natOfDigitsFrom, List.foldl_cons, digitCh_toNat n hn]
      norm_num
    · rw [if_neg hn]
      have hlt : n / 10 < fuel := by omega
      rw [ih (n / 10) (digitCh (n % 10) :: acc) hlt]
      simp only [natOfDigitsFrom, List.foldl_cons, digitCh_toNat (n % 10) (by omega)]
      have : 10 * (n / 10) + (48 + n % 10 - 48) = n := by omega
      rw [this]

theorem natOfDigits_natDigits (n : Nat) : natOfDigits (natDigits n) = n := by
  unfold natOfDigits natDigits
  rw [natOfDigitsFrom_natDigitsAux (n + 1) n [] (by omega)]
  rfl

theorem natDigitsAux_digits :
    ∀ (fuel n : Nat) (acc : List Char), (∀ c ∈ acc, isDig c = true) →
      ∀ c ∈ natDigitsAux fuel n acc, isDig c = true := by
  intro fuel
  induction fuel with
  | zero => intro n acc hacc c hc; exact hacc c hc
  | succ fuel ih =>
    intro n acc hacc c hc
    unfold natDigitsAux at hc
    by_cases hn : n < 10
    · rw [if_pos hn] at hc
      rcases List.mem_cons.mp hc with rfl | hc
      · exact isDig_digitCh n hn
      · exact hacc c hc
    · rw [if_neg hn] at hc
      refine ih (n / 10) _ ?_ c hc
      intro c2 hc2
      rcases List.mem_cons.mp hc2 with rfl | hc2
      · exact isDig_digitCh (n % 10) (by omega)
      · exact hacc c2 hc2

theorem natDigits_digits (n : Nat) : ∀ c ∈ natDigits n, isDig c = true :=
  natDigitsAux_digits (n + 1) n [] (by intro c hc; exact absurd hc (List.not_mem_nil c))

theorem natDigitsAux_cons :
    ∀ (fuel n : Nat) (acc : List Char), n < fuel →
      ∃ d ds, natDigitsAux fuel n acc = d :: ds := by
  intro fuel
  induction fuel with
  | zero => intro n acc h; omega
  | succ fuel ih =>
    intro n acc h
    unfold natDigitsAux
    by_cases hn : n < 10
    · rw [if_pos hn]; exact ⟨_, _, rfl⟩
    · rw [if_neg hn]
      exact ih (n / 10) _ (by omega)

theorem natDigits_cons (n : Nat) : ∃ d ds, natDigits n = d :: ds :=
  natDigitsAux_cons (n + 1) n [] (by omega)

/-! Scanning lemmas. -/

theorem takeWhile_digits (rest : List Char) (hnd : ndStart rest = true) :
    ∀ ds : List Char, (∀ c ∈ ds, isDig c = true) →
      (ds ++ rest).takeWhile isDig = ds ∧ (ds ++ rest).dropWhile isDig = rest := by
  intro ds
  induction ds with
  | nil =>
    intro _
    cases rest with
    | nil => exact ⟨rfl, rfl⟩
    | cons c r =>
      have hc : isDig c = false := by
        cases h : isDig c
        · rfl
        · simp [ndStart, h] at hnd
      constructor
      · simp [List.takeWhile_cons, hc]
      · simp [List.dropWhile_cons, hc]
  | cons d ds ih =>
    intro hds
    have hd : isDig d = true := hds d (List.mem_cons_self _ _)
    have hih := ih fun c hc => hds c (List.mem_cons_of_mem _ hc)
    constructor
    · simp only [List.cons_append, List.takeWhile_cons, hd, if_true, hih.1]
    · simp only [List.cons_append, List.dropWhile_cons, hd, if_true, hih.2]

theorem scanNat_digits (n : Nat) (rest : List Char) (hnd : ndStart rest = true) :
    scanNat (natDigits n ++ rest) = some (n, rest) := by
  obtain ⟨htake, hdrop⟩ := takeWhile_digits rest hnd (natDigits n) (natDigits_digits n)
  obtain ⟨d, ds, hcons⟩ := natDigits_cons n
  unfold scanNat
  rw [htake, hdrop]
  rw [if_neg (by rw [hcons]; simp)]
  rw [natOfDigits_natDigits n]

theorem scanStr_append (rest : List Char) :
    ∀ s : List Char, strOk s = true → scanStr (s ++ dqc :: rest) = some (s, rest) := by
  intro s
  induction s with
  | nil =>
    intro _
    show scanStr (dqc :: rest) = _
    unfold scanStr
    rw [if_pos rfl]
  | cons c cs ih =>
    intro hok
    have hc : (¬ c = dqc ∧ ¬ c = sqc ∧ ¬ c = bsc) := by
      have := List.all_eq_true.mp hok c (List.mem_cons_self _ _)
      exact of_decide_eq_true this
    have hcs : strOk cs = true := by
      apply List.all_eq_true.mpr
      intro x hx
      exact List.all_eq_true.mp hok x (List.mem_cons_of_mem _ hx)
    show scanStr (c :: (cs ++ dqc :: rest)) = _
    unfold scanStr
    rw [if_neg hc.1, if_neg hc.2.2, ih hcs]
    rfl

/-! Whitespace lemmas. -/

theorem skipWs_cons_not_ws (c : Char) (l : List Char) (h : isWs c = false) :
    skipWs (c :: l) = c :: l := by
  simp [skipWs, List.dropWhile_cons, h]

theorem skipWs_ws_append (pre : List Char) (hpre : wsOnly pre = true) (l : List Char) :
    skipWs (pre ++ l) = skipWs l := by
  induction pre with
  | nil => rfl
  | cons c cs ih =>
    have hc : isWs c = true := List.all_eq_true.mp hpre c (List.mem_cons_self _ _)
    have hcs : wsOnly cs = true := by
      apply List.all_eq_true.mpr
      intro x hx
      exact List.all_eq_true.mp hpre x (List.mem_cons_of_mem _ hx)
    show skipWs (c :: (cs ++ l)) = _
    unfold skipWs
    rw [List.dropWhile_cons, if_pos hc]
    exact ih hcs

/-- Every canonical encoding starts with a distinctive non-whitespace
character that is not a closing bracket, comma or single quote. -/
theorem encV_head (v : Jv) :
    ∃ c cs, encV v = c :: cs ∧ isWs c = false ∧ ¬ c = ']' ∧ ¬ c = '}' ∧
      ¬ c = ',' ∧ ¬ c = sqc := by
  cases v with
  | jnull => exact ⟨'n', _, rfl, by decide, by decide, by decide, by decide, by decide⟩
  | jbool b =>
    cases b with
    | true => exact ⟨'t', _, rfl, by decide, by decide, by decide, by decide, by decide⟩
    | false => exact ⟨'f', _, rfl, by decide, by decide, by decide, by decide, by decide⟩
  | jnum n =>
    by_cases hn : n < 0
    · refine ⟨'-', natDigits (-n).toNat, ?_, by decide, by decide, by decide,
        by decide, by decide⟩
      show encV (.jnum n) = _
      unfold encV
      rw [if_pos hn]
    · obtain ⟨d, ds, hcons⟩ := natDigits_cons n.toNat
      have hd : isDig d = true := by
        have := natDigits_digits n.toNat d (by rw [hcons]; exact List.mem_cons_self _ _)
        exact this
      obtain ⟨hws, h1, h2, h3, h4⟩ := isDig_char_cases d hd
      refine ⟨d, ds, ?_, hws, h1, h2, h3, h4⟩
      show encV (.jnum n) = _
      unfold encV
      rw [if_neg hn, hcons]
  | jstr s => exact ⟨dqc, _, rfl, by decide, by decide, by decide, by decide, by decide⟩
  | jarr xs =>
    cases xs with
    | nil => exact ⟨'[', _, rfl, by decide, by decide, by decide, by decide, by decide⟩
    | cons x xs =>
      exact ⟨'[', _, rfl, by decide, by decide, by decide, by decide, by decide⟩
  | jobj m =>
    cases m with
    | nil => exact ⟨'{', _, rfl, by decide, by decide, by decide, by decide, by decide⟩
    | cons kv m =>
      obtain ⟨k, v⟩ := kv
      exact ⟨'{', _, rfl, by decide, by decide, by decide, by decide, by decide⟩

/-! Dispatch lemmas: one parser step for each possible head character. -/

theorem isDig_not_heads (c : Char) (h : isDig c = true) :
    ¬ c = '[' ∧ ¬ c = '{' ∧ ¬ c = dqc ∧ ¬ c = '-' := by
  refine ⟨?_, ?_, ?_, ?_⟩ <;> (rintro rfl; exact absurd h (by decide))

theorem parseP_val_lbrack (f : Nat) (s r : List Char) (h : skipWs s = '[' :: r) :
    parseP (f + 1) .val s =
      (match skipWs r with
       | ']' :: r2 => some (.v (.jarr []), r2)
       | _ =>
         match parseP f .elems (skipWs r) with
         | some (.vs xs, r2) => some (.v (.jarr xs), r2)
         | _ => none) := by
  simp only [parseP, h]
  rw [if_pos trivial]

theorem parseP_val_lbrace (f : Nat) (s r : List Char) (h : skipWs s = '{' :: r) :
    parseP (f + 1) .val s =
      (match skipWs r with
       | '}' :: r2 => some (.v (.jobj []), r2)
       | _ =>
         match parseP f .members (skipWs r) with
         | some (.kvs m, r2) => some (.v (.jobj m), r2)
         | _ => none) := by
  simp only [parseP, h]
  rw [if_neg (by decide), if_pos trivial]

theorem parseP_val_dq (f : Nat) (s r : List Char) (h : skipWs s = dqc :: r) :
    parseP (f + 1) .val s =
      (match scanStr r with
       | some (cs, r2) => some (.v (.jstr cs), r2)
       | none => none) := by
  simp only [parseP, h]
  rw [if_neg (by decide), if_neg (by decide), if_pos trivial]

theorem parseP_val_minus (f : Nat) (s r : List Char) (h : skipWs s = '-' :: r) :
    parseP (f + 1) .val s =
      (match scanNat r with
       | some (n, r2) => some (.v (.jnum (-(n : Int))), r2)
       | none => none) := by
  simp only [parseP, h]
  rw [if_neg (by decide), if_neg (by decide), if_neg (by decide), if_pos trivial]

theorem parseP_val_digit (f : Nat) (s r : List Char) (c : Char)
    (hc : isDig c = true) (h : skipWs s = c :: r) :
    parseP (f + 1) .val s =
      (match scanNat (c :: r) with
       | some (n, r2) => some (.v (.jnum (n : Int)), r2)
       | none => none) := by
  obtain ⟨h1, h2, h3, h4⟩ := isDig_not_heads c hc
  simp only [parseP, h]
  rw [if_neg h1, if_neg h2, if_neg h3, if_neg h4, if_pos hc]

theorem parseP_val_null_hit (f : Nat) (s r2 : List Char)
    (h : skipWs s = 'n' :: 'u' :: 'l' :: 'l' :: r2) :
    parseP (f + 1) .val s = some (.v .jnull, r2) := by
  simp only [parseP, h]
  rw [if_neg (by decide), if_neg (by decide), if_neg (by decide),
    if_neg (by decide), if_neg (by decide), if_pos trivial]

theorem parseP_val_true_hit (f : Nat) (s r2 : List Char)
    (h : skipWs s = 't' :: 'r' :: 'u' :: 'e' :: r2) :
    parseP (f + 1) .val s = some (.v (.jbool true), r2) := by
  simp only [parseP, h]
  rw [if_neg (by decide), if_neg (by decide), if_neg (by decide),
    if_neg (by decide), if_neg (by decide), if_neg (by decide), if_pos trivial]

theorem parseP_val_false_hit (f : Nat) (s r2 : List Char)
    (h : skipWs s = 'f' :: 'a' :: 'l' :: 's' :: 'e' :: r2) :
    parseP (f + 1) .val s = some (.v (.jbool false), r2) := by
  simp only [parseP, h]
  rw [if_neg (by decide), if_neg (by decide), if_neg (by decide),
    if_neg (by decide), if_neg (by decide), if_neg (by decide),
    if_neg (by decide), if_pos trivial]

theorem parseP_val_sq (f : Nat) (s r : List Char) (h : skipWs s = sqc :: r) :
    parseP (f + 1) .val s = none := by
  simp only [parseP, h]
  rw [if_neg (by decide), if_neg (by decide), if_neg (by decide),
    if_neg (by decide), if_neg (by decide), if_neg (by decide),
    if_neg (by decide), if_neg (by decide)]

theorem parseP_elems_eq (f : Nat) (s : List Char) :
    parseP (f + 1) .elems s =
      (match parseP f .val s with
       | some (.v v, r) =>
         (match skipWs r with
          | ',' :: r2 =>
            match parseP f .elems r2 with
            | some (.vs xs, r3) => some (.vs (v :: xs), r3)
            | _ => none
          | ']' :: r2 => some (.vs [v], r2)
          | _ => none)
       | _ => none) := by
  simp only [parseP]

theorem parseP_members_dq (f : Nat) (s r : List Char) (h : skipWs s = dqc :: r) :
    parseP (f + 1) .members s =
      (match scanStr r with
       | some (k, r2) =>
         (match skipWs r2 with
          | ':' :: r3 =>
            match parseP f .val r3 with
            | some (.v v, r4) =>
              (match skipWs r4 with
               | ',' :: r5 =>
                 match parseP f .members r5 with
                 | some (.kvs m, r6) => some (.kvs ((k, v) :: m), r6)
                 | _ => none
               | '}' :: r5 => some (.kvs [(k, v)], r5)
               | _ => none)
            | _ => none
          | _ => none)
       | none => none) := by
  simp only [parseP, h]
  rw [if_pos trivial]

theorem parseP_members_not_dq (f : Nat) (s r : List Char) (c : Char)
    (hc : ¬ c = dqc) (h : skipWs s = c :: r) :
    parseP (f + 1) .members s = none := by
  simp only [parseP, h]
  rw [if_neg hc]

set_option maxHeartbeats 1000000 in
theorem parse_roundtrip : ∀ fuel : Nat,
    (∀ (v : Jv) (pre rest : List Char), qfV v = true → wsOnly pre = true →
      ndStart rest = true → 2 * (pre ++ (encV v ++ rest)).length ≤ fuel →
      parseP fuel .val (pre ++ (encV v ++ rest)) = some (.v v, rest)) ∧
    (∀ (x : Jv) (xs : List Jv) (pre rest : List Char), qfV x = true →
      qfL xs = true → wsOnly pre = true →
      2 * (pre ++ (encV x ++ (encItems xs ++ ']' :: rest))).length + 1 ≤ fuel →
      parseP fuel .elems (pre ++ (encV x ++ (encItems xs ++ ']' :: rest))) =
        some (.vs (x :: xs), rest)) ∧
    (∀ (k : List Char) (v : Jv) (m : List (List Char × Jv)) (pre rest : List Char),
      strOk k = true → qfV v = true → qfM m = true → wsOnly pre = true →
      2 * (pre ++ dqc :: (k ++ dqc :: ':' :: ' ' ::
          (encV v ++ (encMembers m ++ '}' :: rest)))).length + 1 ≤ fuel →
      parseP fuel .members (pre ++ dqc :: (k ++ dqc :: ':' :: ' ' ::
          (encV v ++ (encMembers m ++ '}' :: rest)))) =
        some (.kvs ((k, v) :: m), rest)) := by
  intro fuel
  induction fuel with
  | zero =>
    refine ⟨?_, ?_, ?_⟩
    · intro v pre rest _ _ _ hlen
      obtain ⟨c, cs, hcons, -⟩ := encV_head v
      rw [hcons] at hlen
      simp [List.length_append] at hlen
    · intro x xs pre rest _ _ _ hlen
      omega
    · intro k v m pre rest _ _ _ _ hlen
      omega
  | succ f ih =>
    obtain ⟨ihv, ihe, ihm⟩ := ih
    refine ⟨?_, ?_, ?_⟩
    · -- value clause
      intro v pre rest hqf hpre hnd hlen
      cases v with
      | jnull =>
        exact parseP_val_null_hit f _ rest
          (by rw [skipWs_ws_append pre hpre]
              exact skipWs_cons_not_ws 'n' _ (by decide))
      | jbool b =>
        cases b with
        | true =>
          exact parseP_val_true_hit f _ rest
            (by rw [skipWs_ws_append pre hpre]
                exact skipWs_cons_not_ws 't' _ (by decide))
        | false =>
          exact parseP_val_false_hit f _ rest
            (by rw [skipWs_ws_append pre hpre]
                exact skipWs_cons_not_ws 'f' _ (by decide))
      | jnum n =>
        by_cases hn : n < 0
        · have henc : encV (.jnum n) ++ rest = '-' :: (natDigits (-n).toNat ++ rest) := by
            show encV (.jnum n) ++ rest = _
            unfold encV
            rw [if_pos hn]
            rfl
          have hskip : skipWs (pre ++ (encV (.jnum n) ++ rest)) =
              '-' :: (natDigits (-n).toNat ++ rest) := by
            rw [skipWs_ws_append pre hpre, henc]
            exact skipWs_cons_not_ws '-' _ (by decide)
          rw [parseP_val_minus f _ _ hskip, scanNat_digits _ rest hnd]
          show some (PRes.v (Jv.jnum (-(((-n).toNat : Nat) : Int))), rest) =
            some (PRes.v (Jv.jnum n), rest)
          have heq : (-(((-n).toNat : Nat) : Int)) = n := by omega
          rw [heq]
        · obtain ⟨d, ds, hds⟩ := natDigits_cons n.toNat
          have hd : isDig d = true :=
            natDigits_digits n.toNat d (by rw [hds]; exact List.mem_cons_self _ _)
          have henc : encV (.jnum n) ++ rest = d :: (ds ++ rest) := by
            show encV (.jnum n) ++ rest = _
            unfold encV
            rw [if_neg hn, hds]
            rfl
          have hskip : skipWs (pre ++ (encV (.jnum n) ++ rest)) = d :: (ds ++ rest) := by
            rw [skipWs_ws_append pre hpre, henc]
            exact skipWs_cons_not_ws d _ ((isDig_char_cases d hd).1)
          rw [parseP_val_digit f _ _ d hd hskip,
            show d :: (ds ++ rest) = natDigits n.toNat ++ rest by rw [hds]; rfl,
            scanNat_digits _ rest hnd]
          show some (PRes.v (Jv.jnum ((n.toNat : Nat) : Int)), rest) =
            some (PRes.v (Jv.jnum n), rest)
          have heq : (((n.toNat : Nat)) : Int) = n := by omega
          rw [heq]
      | jstr s =>
        have hok : strOk s = true := by simpa [qfV] using hqf
        have hskip : skipWs (pre ++ (encV (.jstr s) ++ rest)) =
            dqc :: (s ++ dqc :: rest) := by
          rw [skipWs_ws_append pre hpre]
          have : encV (.jstr s) ++ rest = dqc :: (s ++ dqc :: rest) := by
            show (dqc :: s ++ [dqc]) ++ rest = _
            simp
          rw [this]
          exact skipWs_cons_not_ws dqc _ (by decide)
        rw [parseP_val_dq f _ _ hskip, scanStr_append rest s hok]
      | jarr xs =>
        cases xs with
        | nil =>
          have hskip : skipWs (pre ++ (encV (.jarr []) ++ rest)) =
              '[' :: (']' :: rest) := by
            rw [skipWs_ws_append pre hpre]
            exact skipWs_cons_not_ws '[' _ (by decide)
          rw [parseP_val_lbrack f _ _ hskip,
            skipWs_cons_not_ws ']' rest (by decide)]
          rfl
        | cons x xs =>
          have hq : qfV x = true ∧ qfL xs = true := by
            have : qfL (x :: xs) = true := by simpa [qfV] using hqf
            simpa [qfL, Bool.and_eq_true] using this
          have henc : encV (.jarr (x :: xs)) ++ rest =
              '[' :: (encV x ++ (encItems xs ++ ']' :: rest)) := by
            show ('[' :: (encV x ++ encItems xs) ++ [']']) ++ rest = _
            simp
          have hskip : skipWs (pre ++ (encV (.jarr (x :: xs)) ++ rest)) =
              '[' :: (encV x ++ (encItems xs ++ ']' :: rest)) := by
            rw [skipWs_ws_append pre hpre, henc]
            exact skipWs_cons_not_ws '[' _ (by decide)
          rw [parseP_val_lbrack f _ _ hskip]
          obtain ⟨c, cs, hcons, hcw, hc1, hc2, hc3, hc4⟩ := encV_head x
          have hskip2 : skipWs (encV x ++ (encItems xs ++ ']' :: rest)) =
              encV x ++ (encItems xs ++ ']' :: rest) := by
            rw [hcons]
            exact skipWs_cons_not_ws c _ hcw
          rw [hskip2]
          have hbound : 2 * (([] : List Char) ++
              (encV x ++ (encItems xs ++ ']' :: rest))).length + 1 ≤ f := by
            rw [henc] at hlen
            simp only [List.length_append, List.length_cons, List.nil_append] at hlen ⊢
            omega
          have helems : parseP f .elems (encV x ++ (encItems xs ++ ']' :: rest)) =
              some (.vs (x :: xs), rest) := by
            have := ihe x xs [] rest hq.1 hq.2 (by decide) hbound
            simpa using this
          rw [hcons]
          split
          · rename_i r2 heq
            rw [List.cons_append] at heq
            injection heq with hc heq2
            exact absurd hc hc1
          · rw [← hcons, helems]
      | jobj m =>
        cases m with
        | nil =>
          have hskip : skipWs (pre ++ (encV (.jobj []) ++ rest)) =
              '{' :: ('}' :: rest) := by
            rw [skipWs_ws_append pre hpre]
            exact skipWs_cons_not_ws '{' _ (by decide)
          rw [parseP_val_lbrace f _ _ hskip,
            skipWs_cons_not_ws '}' rest (by decide)]
          rfl
        | cons kv m =>
          obtain ⟨k, v⟩ := kv
          have hq : strOk k = true ∧ qfV v = true ∧ qfM m = true := by
            have : qfM ((k, v) :: m) = true := by simpa [qfV] using hqf
            simpa [qfM, Bool.and_eq_true, and_assoc] using this
          have henc : encV (.jobj ((k, v) :: m)) ++ rest =
              '{' :: (dqc :: (k ++ dqc :: ':' :: ' ' ::
                (encV v ++ (encMembers m ++ '}' :: rest)))) := by
            show ('{' :: (dqc :: k ++ dqc :: ':' :: ' ' :: encV v ++ encMembers m)
              ++ ['}']) ++ rest = _
            simp
          have hskip : skipWs (pre ++ (encV (.jobj ((k, v) :: m)) ++ rest)) =
              '{' :: (dqc :: (k ++ dqc :: ':' :: ' ' ::
                (encV v ++ (encMembers m ++ '}' :: rest)))) := by
            rw [skipWs_ws_append pre hpre, henc]
            exact skipWs_cons_not_ws '{' _ (by decide)
          rw [parseP_val_lbrace f _ _ hskip]
          have hskip2 : skipWs (dqc :: (k ++ dqc :: ':' :: ' ' ::
              (encV v ++ (encMembers m ++ '}' :: rest)))) =
              dqc :: (k ++ dqc :: ':' :: ' ' ::
              (encV v ++ (encMembers m ++ '}' :: rest))) :=
            skipWs_cons_not_ws dqc _ (by decide)
          rw [hskip2]
          have hbound : 2 * (([] : List Char) ++ dqc :: (k ++ dqc :: ':' :: ' ' ::
              (encV v ++ (encMembers m ++ '}' :: rest)))).length + 1 ≤ f := by
            rw [henc] at hlen
            simp only [List.length_append, List.length_cons, List.nil_append] at hlen ⊢
            omega
          have hmem : parseP f .members (dqc :: (k ++ dqc :: ':' :: ' ' ::
              (encV v ++ (encMembers m ++ '}' :: rest)))) =
              some (.kvs ((k, v) :: m), rest) := by
            have := ihm k v m [] rest hq.1 hq.2.1 hq.2.2 (by decide) hbound
            simpa using this
          split
          · rename_i r2 heq
            injection heq with hc heq2
            exact absurd hc (by decide)
          · rw [hmem]
    · -- elems clause
      intro x xs pre rest hqx hqxs hpre hlen
      have hndv : ndStart (encItems xs ++ ']' :: rest) = true := by
        cases xs with
        | nil => rfl
        | cons y ys => rfl
      have hval : parseP f .val (pre ++ (encV x ++ (encItems xs ++ ']' :: rest))) =
          some (.v x, encItems xs ++ ']' :: rest) :=
        ihv x pre (encItems xs ++ ']' :: rest) hqx hpre hndv (by omega)
      rw [parseP_elems_eq, hval]
      cases xs with
      | nil =>
        show ((match skipWs (encItems ([] : List Jv) ++ ']' :: rest) with
          | ',' :: r2 =>
            match parseP f .elems r2 with
            | some (PRes.vs xs, r3) => some (PRes.vs (x :: xs), r3)
            | _ => none
          | ']' :: r2 => some (PRes.vs [x], r2)
          | _ => none) : Option (PRes × List Char)) = some (PRes.vs [x], rest)
        rfl
      | cons y ys =>
        have hq2 : qfV y = true ∧ qfL ys = true := by
          simpa [qfL, Bool.and_eq_true] using hqxs
        have henc2 : encItems (y :: ys) ++ ']' :: rest =
            ',' :: (' ' :: (encV y ++ (encItems ys ++ ']' :: rest))) := by
          show (',' :: ' ' :: encV y ++ encItems ys) ++ ']' :: rest = _
          simp
        have hbound2 : 2 * (([' '] : List Char) ++
            (encV y ++ (encItems ys ++ ']' :: rest))).length + 1 ≤ f := by
          obtain ⟨c, cs, hcons, -⟩ := encV_head x
          rw [hcons, henc2] at hlen
          simp only [List.length_append, List.length_cons, List.cons_append,
            List.nil_append] at hlen ⊢
          omega
        have helems2 : parseP f .elems
            (' ' :: (encV y ++ (encItems ys ++ ']' :: rest))) =
            some (.vs (y :: ys), rest) := by
          have := ihe y ys [' '] rest hq2.1 hq2.2 (by decide) hbound2
          simpa using this
        rw [henc2]
        show ((match parseP f .elems
            (' ' :: (encV y ++ (encItems ys ++ ']' :: rest))) with
          | some (PRes.vs xs, r3) => some (PRes.vs (x :: xs), r3)
          | _ => none) : Option (PRes × List Char)) =
          some (PRes.vs (x :: y :: ys), rest)
        rw [helems2]
    · -- members clause
      intro k v m pre rest hsk hqv hqm hpre hlen
      have hskip : skipWs (pre ++ dqc :: (k ++ dqc :: ':' :: ' ' ::
          (encV v ++ (encMembers m ++ '}' :: rest)))) =
          dqc :: (k ++ dqc :: ':' :: ' ' ::
          (encV v ++ (encMembers m ++ '}' :: rest))) := by
        rw [skipWs_ws_append pre hpre]
        exact skipWs_cons_not_ws dqc _ (by decide)
      have hval : parseP f .val
          (' ' :: (encV v ++ (encMembers m ++ '}' :: rest))) =
          some (.v v, encMembers m ++ '}' :: rest) := by
        have hndv : ndStart (encMembers m ++ '}' :: rest) = true := by
          cases m with
          | nil => rfl
          | cons kv2 m2 => obtain ⟨k2, v2⟩ := kv2; rfl
        have := ihv v [' '] (encMembers m ++ '}' :: rest) hqv (by decide) hndv
          (by simp only [List.length_append, List.length_cons, List.cons_append,
                List.nil_append] at hlen ⊢
              omega)
        simpa using this
      rw [parseP_members_dq f _ _ hskip,
        scanStr_append (':' :: ' ' :: (encV v ++ (encMembers m ++ '}' :: rest))) k hsk]
      show ((match parseP f .val
          (' ' :: (encV v ++ (encMembers m ++ '}' :: rest))) with
        | some (PRes.v v2, r4) =>
          (match skipWs r4 with
           | ',' :: r5 =>
             match parseP f .members r5 with
             | some (PRes.kvs m2, r6) => some (PRes.kvs ((k, v2) :: m2), r6)
             | _ => none
           | '}' :: r5 => some (PRes.kvs [(k, v2)], r5)
           | _ => none)
        | _ => none) : Option (PRes × List Char)) =
        some (PRes.kvs ((k, v) :: m), rest)
      rw [hval]
      cases m with
      | nil => rfl
      | cons kv2 m2 =>
        obtain ⟨k2, v2⟩ := kv2
        have hq2 : strOk k2 = true ∧ qfV v2 = true ∧ qfM m2 = true := by
          simpa [qfM, Bool.and_eq_true, and_assoc] using hqm
        have henc3 : encMembers ((k2, v2) :: m2) ++ '}' :: rest =
            ',' :: (' ' :: (dqc :: (k2 ++ dqc :: ':' :: ' ' ::
              (encV v2 ++ (encMembers m2 ++ '}' :: rest))))) := by
          show (',' :: ' ' :: dqc :: k2 ++ dqc :: ':' :: ' ' :: encV v2 ++
            encMembers m2) ++ '}' :: rest = _
          simp
        have hbound3 : 2 * (([' '] : List Char) ++ dqc :: (k2 ++ dqc :: ':' :: ' ' ::
            (encV v2 ++ (encMembers m2 ++ '}' :: rest)))).length + 1 ≤ f := by
          obtain ⟨c, cs, hcons, -⟩ := encV_head v
          rw [hcons, henc3] at hlen
          simp only [List.length_append, List.length_cons, List.cons_append,
            List.nil_append] at hlen ⊢
          omega
        have hmem2 : parseP f .members (' ' :: (dqc :: (k2 ++ dqc :: ':' :: ' ' ::
            (encV v2 ++ (encMembers m2 ++ '}' :: rest))))) =
            some (.kvs ((k2, v2) :: m2), rest) := by
          have := ihm k2 v2 m2 [' '] rest hq2.1 hq2.2.1 hq2.2.2 (by decide) hbound3
          simpa using this
        rw [henc3]
        show ((match parseP f .members (' ' :: (dqc :: (k2 ++ dqc :: ':' :: ' ' ::
            (encV v2 ++ (encMembers m2 ++ '}' :: rest))))) with
          | some (PRes.kvs m3, r6) => some (PRes.kvs ((k, v) :: m3), r6)
          | _ => none) : Option (PRes × List Char)) =
          some (PRes.kvs ((k, v) :: (k2, v2) :: m2), rest)
        rw [hmem2]

/-! Quote characters never occur in the encodings. -/

theorem sqc_not_in_natDigits (n : Nat) : sqc ∉ natDigits n := by
  intro h
  exact absurd (natDigits_digits n sqc h) (by decide)

theorem dqc_not_in_natDigits (n : Nat) : dqc ∉ natDigits n := by
  intro h
  exact absurd (natDigits_digits n dqc h) (by decide)

theorem no_sqc_in_enc : ∀ N : Nat,
    (∀ v : Jv, sizeOf v ≤ N → qfV v = true → sqc ∉ encV v) ∧
    (∀ xs : List Jv, sizeOf xs ≤ N → qfL xs = true → sqc ∉ encItems xs) ∧
    (∀ m : List (List Char × Jv), sizeOf m ≤ N → qfM m = true →
      sqc ∉ encMembers m) := by
  intro N
  induction N with
  | zero =>
    refine ⟨?_, ?_, ?_⟩
    · intro v hv _
      cases v <;> simp_all
    · intro xs hxs _
      cases xs <;> simp_all
    · intro m hm _
      cases m <;> simp_all
  | succ N ih =>
    obtain ⟨ihv, ihl, ihm⟩ := ih
    refine ⟨?_, ?_, ?_⟩
    · intro v hv hq
      cases v with
      | jnull => decide
      | jbool b => cases b <;> decide
      | jnum n =>
        show sqc ∉ encV (.jnum n)
        unfold encV
        by_cases hn : n < 0
        · rw [if_pos hn]
          simp only [List.mem_cons, not_or]
          exact ⟨by decide, sqc_not_in_natDigits _⟩
        · rw [if_neg hn]
          exact sqc_not_in_natDigits _
      | jstr s =>
        have hok : strOk s = true := by simpa [qfV] using hq
        have hs : sqc ∉ s := fun h =>
          (of_decide_eq_true (List.all_eq_true.mp hok sqc h)).2.1 rfl
        show sqc ∉ encV (.jstr s)
        unfold encV
        simp only [List.mem_cons, List.mem_append, List.mem_singleton, not_or]
        repeat' constructor
        all_goals first | decide | exact hs
      | jarr xs =>
        cases xs with
        | nil => decide
        | cons x xs =>
          have hq2 : qfV x = true ∧ qfL xs = true := by
            have hql : qfL (x :: xs) = true := by simpa [qfV] using hq
            simpa [qfL, Bool.and_eq_true] using hql
          have hsz : sizeOf x ≤ N ∧ sizeOf xs ≤ N := by
            have h1 : sizeOf (Jv.jarr (x :: xs)) = 1 + (1 + sizeOf x + sizeOf xs) := by
              simp
            rw [h1] at hv
            constructor <;> omega
          have h1 := ihv x hsz.1 hq2.1
          have h2 := ihl xs hsz.2 hq2.2
          show sqc ∉ encV (.jarr (x :: xs))
          unfold encV
          simp only [List.mem_cons, List.mem_append, List.mem_singleton, not_or]
          repeat' constructor
          all_goals first | decide | exact h1 | exact h2
      | jobj m =>
        cases m with
        | nil => decide
        | cons kv m =>
          obtain ⟨k, v2⟩ := kv
          have hq2 : strOk k = true ∧ qfV v2 = true ∧ qfM m = true := by
            have hqm : qfM ((k, v2) :: m) = true := by simpa [qfV] using hq
            simpa [qfM, Bool.and_eq_true, and_assoc] using hqm
          have hsz : sizeOf v2 ≤ N ∧ sizeOf m ≤ N := by
            have h1 : sizeOf (Jv.jobj ((k, v2) :: m)) =
                1 + (1 + (1 + sizeOf k + sizeOf v2) + sizeOf m) := by
              simp
            rw [h1] at hv
            constructor <;> omega
          have hk : sqc ∉ k := fun h =>
            (of_decide_eq_true (List.all_eq_true.mp hq2.1 sqc h)).2.1 rfl
          have h1 := ihv v2 hsz.1 hq2.2.1
          have h2 := ihm m hsz.2 hq2.2.2
          show sqc ∉ encV (.jobj ((k, v2) :: m))
          unfold encV
          simp only [List.mem_cons, List.mem_append, List.mem_singleton, not_or]
          repeat' constructor
          all_goals first | decide | exact hk | exact h1 | exact h2
    · intro xs hxs hq
      cases xs with
      | nil => simp [encItems]
      | cons x xs =>
        have hq2 : qfV x = true ∧ qfL xs = true := by
          simpa [qfL, Bool.and_eq_true] using hq
        have hsz : sizeOf x ≤ N ∧ sizeOf xs ≤ N := by
          have h1 : sizeOf (x :: xs) = 1 + sizeOf x + sizeOf xs := by simp
          rw [h1] at hxs
          constructor <;> omega
        have h1 := ihv x hsz.1 hq2.1
        have h2 := ihl xs hsz.2 hq2.2
        show sqc ∉ encItems (x :: xs)
        unfold encItems
        simp only [List.mem_cons, List.mem_append, List.mem_singleton, not_or]
        repeat' constructor
        all_goals first | decide | exact h1 | exact h2
    · intro m hm hq
      cases m with
      | nil => simp [encMembers]
      | cons kv m =>
        obtain ⟨k, v2⟩ := kv
        have hq2 : strOk k = true ∧ qfV v2 = true ∧ qfM m = true := by
          simpa [qfM, Bool.and_eq_true, and_assoc] using hq
        have hsz : sizeOf v2 ≤ N ∧ sizeOf m ≤ N := by
          have h1 : sizeOf ((k, v2) :: m) = 1 + (1 + sizeOf k + sizeOf v2) + sizeOf m := by
            simp
          rw [h1] at hm
          constructor <;> omega
        have hk : sqc ∉ k := fun h =>
          (of_decide_eq_true (List.all_eq_true.mp hq2.1 sqc h)).2.1 rfl
        have h1 := ihv v2 hsz.1 hq2.2.1
        have h2 := ihm m hsz.2 hq2.2.2
        show sqc ∉ encMembers ((k, v2) :: m)
        unfold encMembers
        simp only [List.mem_cons, List.mem_append, List.mem_singleton, not_or]
        repeat' constructor
        all_goals first | decide | exact hk | exact h1 | exact h2

theorem no_dqc_in_enc : ∀ N : Nat,
    (∀ v : Jv, sizeOf v ≤ N → hasQV v = false → dqc ∉ encV v) ∧
    (∀ xs : List Jv, sizeOf xs ≤ N → hasQL xs = false → dqc ∉ encItems xs) := by
  intro N
  induction N with
  | zero =>
    refine ⟨?_, ?_⟩
    · intro v hv _
      cases v <;> simp_all
    · intro xs hxs _
      cases xs <;> simp_all
  | succ N ih =>
    obtain ⟨ihv, ihl⟩ := ih
    refine ⟨?_, ?_⟩
    · intro v hv hq
      cases v with
      | jnull => decide
      | jbool b => cases b <;> decide
      | jnum n =>
        show dqc ∉ encV (.jnum n)
        unfold encV
        by_cases hn : n < 0
        · rw [if_pos hn]
          simp only [List.mem_cons, not_or]
          exact ⟨by decide, dqc_not_in_natDigits _⟩
        · rw [if_neg hn]
          exact dqc_not_in_natDigits _
      | jstr s => simp [hasQV] at hq
      | jarr xs =>
        cases xs with
        | nil => decide
        | cons x xs =>
          have hq2 : hasQV x = false ∧ hasQL xs = false := by
            have hql : hasQL (x :: xs) = false := by simpa [hasQV] using hq
            simpa [hasQL, Bool.or_eq_false_iff] using hql
          have hsz : sizeOf x ≤ N ∧ sizeOf xs ≤ N := by
            have h1 : sizeOf (Jv.jarr (x :: xs)) = 1 + (1 + sizeOf x + sizeOf xs) := by
              simp
            rw [h1] at hv
            constructor <;> omega
          have h1 := ihv x hsz.1 hq2.1
          have h2 := ihl xs hsz.2 hq2.2
          show dqc ∉ encV (.jarr (x :: xs))
          unfold encV
          simp only [List.mem_cons, List.mem_append, List.mem_singleton, not_or]
          repeat' constructor
          all_goals first | decide | exact h1 | exact h2
      | jobj m =>
        cases m with
        | nil => decide
        | cons kv m => simp [hasQV] at hq
    · intro xs hxs hq
      cases xs with
      | nil => simp [encItems]
      | cons x xs =>
        have hq2 : hasQV x = false ∧ hasQL xs = false := by
          simpa [hasQL, Bool.or_eq_false_iff] using hq
        have hsz : sizeOf x ≤ N ∧ sizeOf xs ≤ N := by
          have h1 : sizeOf (x :: xs) = 1 + sizeOf x + sizeOf xs := by simp
          rw [h1] at hxs
          constructor <;> omega
        have h1 := ihv x hsz.1 hq2.1
        have h2 := ihl xs hsz.2 hq2.2
        show dqc ∉ encItems (x :: xs)
        unfold encItems
        simp only [List.mem_cons, List.mem_append, List.mem_singleton, not_or]
        repeat' constructor
        all_goals first | decide | exact h1 | exact h2

/-- Mapping double to single quotes fixes a list without double quotes. -/
theorem map_dqToSq_id (l : List Char) (h : dqc ∉ l) : l.map dqToSq = l := by
  induction l with
  | nil => rfl
  | cons c cs ih =>
    have hc : ¬ c = dqc := fun hcd => h (hcd ▸ List.mem_cons_self c cs)
    have hcs : dqc ∉ cs := fun hm => h (List.mem_cons_of_mem c hm)
    have hc2 : dqToSq c = c := by
      unfold dqToSq
      rw [if_neg hc]
    simp [hc2, ih hcs]

/-- Round trip on characters: mapping double quotes to single and back is the
identity on a list without single quotes. -/
theorem map_sqToDq_dqToSq (l : List Char) (h : sqc ∉ l) :
    (l.map dqToSq).map sqToDq = l := by
  induction l with
  | nil => rfl
  | cons c cs ih =>
    have hc : ¬ c = sqc := fun hcd => h (hcd ▸ List.mem_cons_self c cs)
    have hcs : sqc ∉ cs := fun hm => h (List.mem_cons_of_mem c hm)
    have hc2 : sqToDq (dqToSq c) = c := by
      unfold dqToSq sqToDq
      by_cases hd : c = dqc
      · rw [if_pos hd, if_pos rfl, hd]
      · rw [if_neg hd, if_neg hc]
    simp [hc2, ih hcs]

/-! The quote substitution fixes every structural character. -/

theorem d2s_lb : dqToSq '[' = '[' := by decide

theorem d2s_rb : dqToSq ']' = ']' := by decide

theorem d2s_lc : dqToSq '{' = '{' := by decide

theorem d2s_rc : dqToSq '}' = '}' := by decide

theorem d2s_comma : dqToSq ',' = ',' := by decide

theorem d2s_space : dqToSq ' ' = ' ' := by decide

theorem d2s_colon : dqToSq ':' = ':' := by decide

theorem d2s_dq : dqToSq dqc = sqc := by decide

theorem dqToSq_head_facts (c : Char) (hw : isWs c = false) (h1 : ¬ c = ']') :
    isWs (dqToSq c) = false ∧ ¬ dqToSq c = ']' := by
  unfold dqToSq
  by_cases hd : c = dqc
  · rw [if_pos hd]
    exact ⟨by decide, by decide⟩
  · rw [if_neg hd]
    exact ⟨hw, h1⟩

set_option maxHeartbeats 1000000 in
theorem parse_sq_none : ∀ fuel : Nat,
    (∀ (v : Jv) (pre rest : List Char), qfV v = true → hasQV v = true →
      wsOnly pre = true →
      2 * (pre ++ ((encV v).map dqToSq ++ rest)).length ≤ fuel →
      parseP fuel .val (pre ++ ((encV v).map dqToSq ++ rest)) = none) ∧
    (∀ (x : Jv) (xs : List Jv) (pre rest : List Char), qfV x = true →
      qfL xs = true → hasQL (x :: xs) = true → wsOnly pre = true →
      2 * (pre ++ ((encV x).map dqToSq ++ ((encItems xs).map dqToSq ++
          ']' :: rest))).length + 1 ≤ fuel →
      parseP fuel .elems (pre ++ ((encV x).map dqToSq ++
          ((encItems xs).map dqToSq ++ ']' :: rest))) = none) := by
  intro fuel
  induction fuel with
  | zero =>
    refine ⟨?_, ?_⟩
    · intro v pre rest _ _ _ _
      rfl
    · intro x xs pre rest _ _ _ _ _
      rfl
  | succ f ih =>
    obtain ⟨ihv, ihe⟩ := ih
    refine ⟨?_, ?_⟩
    · -- value clause
      intro v pre rest hqf hq hpre hlen
      cases v with
      | jnull => simp [hasQV] at hq
      | jbool b => simp [hasQV] at hq
      | jnum n => simp [hasQV] at hq
      | jstr s =>
        have henc : (encV (.jstr s)).map dqToSq ++ rest =
            sqc :: ((s ++ [dqc]).map dqToSq ++ rest) := by
          show ((dqc :: (s ++ [dqc])).map dqToSq) ++ rest = _
          simp [d2s_dq]
        have hskip : skipWs (pre ++ ((encV (.jstr s)).map dqToSq ++ rest)) =
            sqc :: ((s ++ [dqc]).map dqToSq ++ rest) := by
          rw [skipWs_ws_append pre hpre, henc]
          exact skipWs_cons_not_ws sqc _ (by decide)
        exact parseP_val_sq f _ _ hskip
      | jarr xs =>
        cases xs with
        | nil => simp [hasQV, hasQL] at hq
        | cons x xs =>
          have hql : hasQL (x :: xs) = true := by simpa [hasQV] using hq
          have hqp : qfV x = true ∧ qfL xs = true := by
            have hqlq : qfL (x :: xs) = true := by simpa [qfV] using hqf
            simpa [qfL, Bool.and_eq_true] using hqlq
          have henc : (encV (.jarr (x :: xs))).map dqToSq ++ rest =
              '[' :: ((encV x).map dqToSq ++
                ((encItems xs).map dqToSq ++ ']' :: rest)) := by
            show (('[' :: (encV x ++ encItems xs)) ++ [']']).map dqToSq ++ rest = _
            simp [d2s_lb, d2s_rb]
          have hskip : skipWs (pre ++ ((encV (.jarr (x :: xs))).map dqToSq ++ rest)) =
              '[' :: ((encV x).map dqToSq ++
                ((encItems xs).map dqToSq ++ ']' :: rest)) := by
            rw [skipWs_ws_append pre hpre, henc]
            exact skipWs_cons_not_ws '[' _ (by decide)
          rw [parseP_val_lbrack f _ _ hskip]
          obtain ⟨c, cs, hcons, hcw, hc1, hc2, hc3, hc4⟩ := encV_head x
          have hconsm : (encV x).map dqToSq = dqToSq c :: cs.map dqToSq := by
            rw [hcons]
            rfl
          obtain ⟨hcw2, hc12⟩ := dqToSq_head_facts c hcw hc1
          have hskip2 : skipWs ((encV x).map dqToSq ++
              ((encItems xs).map dqToSq ++ ']' :: rest)) =
              (encV x).map dqToSq ++ ((encItems xs).map dqToSq ++ ']' :: rest) := by
            rw [hconsm]
            exact skipWs_cons_not_ws _ _ hcw2
          rw [hskip2]
          have hbound : 2 * (([] : List Char) ++ ((encV x).map dqToSq ++
              ((encItems xs).map dqToSq ++ ']' :: rest))).length + 1 ≤ f := by
            rw [henc] at hlen
            simp only [List.length_append, List.length_cons, List.nil_append] at hlen ⊢
            omega
          have helems : parseP f .elems ((encV x).map dqToSq ++
              ((encItems xs).map dqToSq ++ ']' :: rest)) = none := by
            have := ihe x xs [] rest hqp.1 hqp.2 hql (by decide) hbound
            simpa using this
          rw [hconsm]
          split
          · rename_i r2 heq
            rw [List.cons_append] at heq
            injection heq with hch heq2
            exact absurd hch hc12
          · rw [← hconsm, helems]
      | jobj m =>
        cases m with
        | nil => simp [hasQV] at hq
        | cons kv m =>
          obtain ⟨k, v2⟩ := kv
          have henc : (encV (.jobj ((k, v2) :: m))).map dqToSq ++ rest =
              '{' :: (sqc :: (k.map dqToSq ++ sqc :: ':' :: ' ' ::
                ((encV v2).map dqToSq ++
                  ((encMembers m).map dqToSq ++ '}' :: rest)))) := by
            show (('{' :: (dqc :: k ++ dqc :: ':' :: ' ' :: encV v2 ++ encMembers m)
              ++ ['}']).map dqToSq) ++ rest = _
            simp [d2s_dq, d2s_lc, d2s_rc, d2s_colon, d2s_space]
          have hskip : skipWs (pre ++
              ((encV (.jobj ((k, v2) :: m))).map dqToSq ++ rest)) =
              '{' :: (sqc :: (k.map dqToSq ++ sqc :: ':' :: ' ' ::
                ((encV v2).map dqToSq ++
                  ((encMembers m).map dqToSq ++ '}' :: rest)))) := by
            rw [skipWs_ws_append pre hpre, henc]
            exact skipWs_cons_not_ws '{' _ (by decide)
          rw [parseP_val_lbrace f _ _ hskip]
          have hskip2 : skipWs (sqc :: (k.map dqToSq ++ sqc :: ':' :: ' ' ::
              ((encV v2).map dqToSq ++
                ((encMembers m).map dqToSq ++ '}' :: rest)))) =
              sqc :: (k.map dqToSq ++ sqc :: ':' :: ' ' ::
              ((encV v2).map dqToSq ++
                ((encMembers m).map dqToSq ++ '}' :: rest))) :=
            skipWs_cons_not_ws sqc _ (by decide)
          rw [hskip2]
          have hmem : parseP f .members (sqc :: (k.map dqToSq ++ sqc :: ':' :: ' ' ::
              ((encV v2).map dqToSq ++
                ((encMembers m).map dqToSq ++ '}' :: rest)))) = none := by
            cases f with
            | zero => rfl
            | succ f2 =>
              exact parseP_members_not_dq f2 _ _ sqc (by decide)
                (skipWs_cons_not_ws sqc _ (by decide))
          split
          · rename_i r2 heq
            injection heq with hch heq2
            exact absurd hch (by decide)
          · rw [hmem]
    · -- elements clause
      intro x xs pre rest hqx hqxs hql hpre hlen
      by_cases hx : hasQV x = true
      · have hval : parseP f .val (pre ++ ((encV x).map dqToSq ++
            ((encItems xs).map dqToSq ++ ']' :: rest))) = none :=
          ihv x pre ((encItems xs).map dqToSq ++ ']' :: rest) hqx hx hpre (by omega)
        rw [parseP_elems_eq, hval]
      · have hx2 : hasQV x = false := by simpa using hx
        have hmapid : (encV x).map dqToSq = encV x :=
          map_dqToSq_id _ ((no_dqc_in_enc (sizeOf x)).1 x le_rfl hx2)
        have hqlxs : hasQL xs = true := by
          have hor : (hasQV x || hasQL xs) = true := by simpa [hasQL] using hql
          simpa [hx2] using hor
        cases xs with
        | nil => simp [hasQL] at hqlxs
        | cons y ys =>
          have hq2 : qfV y = true ∧ qfL ys = true := by
            simpa [qfL, Bool.and_eq_true] using hqxs
          have henc2 : (encItems (y :: ys)).map dqToSq ++ ']' :: rest =
              ',' :: (' ' :: ((encV y).map dqToSq ++
                ((encItems ys).map dqToSq ++ ']' :: rest))) := by
            show ((',' :: ' ' :: encV y ++ encItems ys).map dqToSq) ++ ']' :: rest = _
            simp [d2s_comma, d2s_space]
          have hndv : ndStart ((encItems (y :: ys)).map dqToSq ++ ']' :: rest) = true := by
            rw [henc2]
            rfl
          rw [hmapid] at hlen
          have hval : parseP f .val (pre ++ (encV x ++
              ((encItems (y :: ys)).map dqToSq ++ ']' :: rest))) =
              some (.v x, (encItems (y :: ys)).map dqToSq ++ ']' :: rest) :=
            (parse_roundtrip f).1 x pre _ hqx hpre hndv (by omega)
          rw [parseP_elems_eq, hmapid, hval]
          have hbound2 : 2 * (([' '] : List Char) ++ ((encV y).map dqToSq ++
              ((encItems ys).map dqToSq ++ ']' :: rest))).length + 1 ≤ f := by
            obtain ⟨c, cs, hcons, -⟩ := encV_head x
            rw [hcons, henc2] at hlen
            simp only [List.length_append, List.length_cons, List.cons_append,
              List.nil_append] at hlen ⊢
            omega
          have helems2 : parseP f .elems (' ' :: ((encV y).map dqToSq ++
              ((encItems ys).map dqToSq ++ ']' :: rest))) = none := by
            have := ihe y ys [' '] rest hq2.1 hq2.2 hqlxs (by decide) hbound2
            simpa using this
          rw [henc2]
          show ((match parseP f .elems (' ' :: ((encV y).map dqToSq ++
              ((encItems ys).map dqToSq ++ ']' :: rest))) with
            | some (PRes.vs xs2, r3) => some (PRes.vs (x :: xs2), r3)
            | _ => none) : Option (PRes × List Char)) = none
          rw [helems2]

/-! Glue: the encoder/parser round trip instantiated for `jsonLoads` and
`parse_json_safe`. -/

theorem jsonLoads_encV (v : Jv) (hq : qfV v = true) : jsonLoads (encV v) = some v := by
  have h := (parse_roundtrip (2 * (encV v).length + 2)).1 v [] [] hq (by decide) rfl
    (by simp)
  have h2 : parseP (2 * (encV v).length + 2) .val (encV v) = some (.v v, []) := by
    simpa using h
  simp [jsonLoads, h2, skipWs]

theorem jsonLoads_sqEnc_none (v : Jv) (hqf : qfV v = true) (hq : hasQV v = true) :
    jsonLoads (sqEnc v) = none := by
  have h := (parse_sq_none (2 * (sqEnc v).length + 2)).1 v [] [] hqf hq (by decide)
    (by simp [sqEnc])
  have h2 : parseP (2 * (sqEnc v).length + 2) .val (sqEnc v) = none := by
    simpa [sqEnc] using h
  simp [jsonLoads, h2]

theorem strip_of_ends (a b : Char) (ha : isWs a = false) (hb : isWs b = false)
    (mid : List Char) : strip (a :: (mid ++ [b])) = a :: (mid ++ [b]) := by
  unfold strip
  rw [List.dropWhile_cons, if_neg (by simp [ha])]
  have hrev : (a :: (mid ++ [b])).reverse = b :: (mid.reverse ++ [a]) := by simp
  rw [hrev, List.dropWhile_cons, if_neg (by simp [hb]), ← hrev, List.reverse_reverse]

theorem parse_json_safe_eval (s : List Char) (hstrip : strip s = s)
    (hhead : ∃ t, s = '[' :: t) :
    parse_json_safe (some s) =
      (match jsonLoads s with
       | some v => v
       | none =>
         match jsonLoads (s.map sqToDq) with
         | some v => v
         | none => .jarr []) := by
  obtain ⟨t, rfl⟩ := hhead
  have hlow : lowerStr ('[' :: t) = '[' :: lowerStr t := by
    show Char.toLower '[' :: t.map Char.toLower = _
    rw [show Char.toLower '[' = '[' from by decide]
    rfl
  show (let s2 := strip ('[' :: t)
    if s2.isEmpty then Jv.jarr []
    else if lowerStr s2 = ['n', 'u', 'l', 'l'] then Jv.jarr []
    else
      match jsonLoads s2 with
      | some v => v
      | none =>
        match jsonLoads (s2.map sqToDq) with
        | some v => v
        | none => Jv.jarr []) = _
  rw [hstrip]
  show (if ('[' :: t).isEmpty then Jv.jarr []
    else if lowerStr ('[' :: t) = ['n', 'u', 'l', 'l'] then Jv.jarr []
    else
      match jsonLoads ('[' :: t) with
      | some v => v
      | none =>
        match jsonLoads (('[' :: t).map sqToDq) with
        | some v => v
        | none => Jv.jarr []) = _
  rw [if_neg (by simp), if_neg (by
    rw [hlow]
    intro h
    injection h with h1 h2
    exact absurd h1 (by decide))]

theorem parse_json_safe_encArr (xs : List Jv) (hq : qfL xs = true) :
    parse_json_safe (some (encV (.jarr xs))) = .jarr xs := by
  cases xs with
  | nil => rfl
  | cons x xs =>
    have hstrip : strip (encV (.jarr (x :: xs))) = encV (.jarr (x :: xs)) :=
      strip_of_ends '[' ']' (by decide) (by decide) (encV x ++ encItems xs)
    have hhead : ∃ t, encV (.jarr (x :: xs)) = '[' :: t := ⟨_, rfl⟩
    rw [parse_json_safe_eval _ hstrip hhead,
      jsonLoads_encV (.jarr (x :: xs)) (by simpa [qfV] using hq)]

theorem parse_json_safe_sqEncArr (xs : List Jv) (hq : qfL xs = true) :
    parse_json_safe (some (sqEnc (.jarr xs))) = .jarr xs := by
  have hqv : qfV (.jarr xs) = true := by simpa [qfV] using hq
  cases hhq : hasQV (.jarr xs) with
  | false =>
    have hid : sqEnc (.jarr xs) = encV (.jarr xs) :=
      map_dqToSq_id _ ((no_dqc_in_enc (sizeOf (Jv.jarr xs))).1 _ le_rfl hhq)
    rw [hid]
    exact parse_json_safe_encArr xs hq
  | true =>
    cases xs with
    | nil => simp [hasQV, hasQL] at hhq
    | cons x xs =>
      have hsh : sqEnc (.jarr (x :: xs)) =
          '[' :: (((encV x ++ encItems xs).map dqToSq) ++ [']']) := by
        show ('[' :: ((encV x ++ encItems xs) ++ [']'])).map dqToSq = _
        simp [d2s_lb, d2s_rb]
      have hstrip : strip (sqEnc (.jarr (x :: xs))) = sqEnc (.jarr (x :: xs)) := by
        rw [hsh]
        exact strip_of_ends '[' ']' (by decide) (by decide) _
      rw [parse_json_safe_eval _ hstrip ⟨_, hsh⟩,
        jsonLoads_sqEnc_none (.jarr (x :: xs)) hqv hhq]
      have hback : (sqEnc (.jarr (x :: xs))).map sqToDq = encV (.jarr (x :: xs)) :=
        map_sqToDq_dqToSq _
          ((no_sqc_in_enc (sizeOf (Jv.jarr (x :: xs)))).1 _ le_rfl hqv)
      rw [hback, jsonLoads_encV (.jarr (x :: xs)) hqv]

/-- The Python-style single-quoted serialization of the one-object list whose
`name` value holds an apostrophe: the text is exactly
`[` `{` `'name'` `:` `"it's"` `}` `]` as `str` of a Python list of dicts
prints it (the apostrophe-bearing string itself keeps double quotes). -/
def sqTextC8 : List Char :=
  ['[', '{', sqc, 'n', 'a', 'm', 'e', sqc, ':', ' ',
   dqc, 'i', 't', sqc, 's', dqc, '}', ']']

/-- The strict-JSON double-quoted serialization of the same one-object list. -/
def dqTextC8 : List Char :=
  ['[', '{', dqc, 'n', 'a', 'm', 'e', dqc, ':', ' ',
   dqc, 'i', 't', sqc, 's', dqc, '}', ']']

/-- C8 counterexample: the double-quoted text decodes to the one-object list,
but the same logical structure serialized in the single-quoted style decodes
to the empty list: the strict pass rejects the single quotes, and the
permissive `replace` pass turns the apostrophe inside `it's` into a stray
double quote, so that pass fails too and `parse_json_safe` falls back to
`[]`.  The two serializations of one value do not decode alike. -/
theorem nested_roundtrip_counterexample :
    parse_json_safe (some dqTextC8) =
      .jarr [.jobj [(['n', 'a', 'm', 'e'], .jstr ['i', 't', sqc, 's'])]] ∧
    parse_json_safe (some sqTextC8) = .jarr [] ∧
    ¬ parse_json_safe (some sqTextC8) = parse_json_safe (some dqTextC8) := by
  refine ⟨rfl, rfl, fun h => ?_⟩
  have h2 : Jv.jarr [] =
      Jv.jarr [Jv.jobj [(['n', 'a', 'm', 'e'], Jv.jstr ['i', 't', sqc, 's'])]] := by
    calc Jv.jarr [] = parse_json_safe (some sqTextC8) := rfl
    _ = parse_json_safe (some dqTextC8) := h
    _ = _ := rfl
  injection h2 with h3
  exact List.noConfusion h3

/-- C8 (amended): for a list-of-objects value all of whose strings (contents
and keys) are free of quote and backslash characters, the single-quoted and
the double-quoted serializations decode to the same logical structure under
`parse_json_safe` (the strict pass handles the double-quoted text; the
single-to-double-quote permissive pass recovers the single-quoted one), and
re-encoding the parse result with `json_dump_if` produces canonical JSON text
that `json.loads` parses back to the same value.  Without that restriction
the round trip fails (see the counterexample).  Unparsable content never
fails the row: whenever both passes reject a text, `parse_json_safe` returns
the empty list. -/
theorem nested_roundtrip_amended :
    (∀ xs : List Jv, qfV (.jarr xs) = true →
      parse_json_safe (some (sqEnc (.jarr xs))) = .jarr xs ∧
      parse_json_safe (some (encV (.jarr xs))) = .jarr xs ∧
      jsonLoads (json_dump_if
        (some (parse_json_safe (some (sqEnc (.jarr xs)))))) = some (.jarr xs)) ∧
    (∀ s : List Char, jsonLoads (strip s) = none →
      jsonLoads ((strip s).map sqToDq) = none →
      parse_json_safe (some s) = .jarr []) := by
  constructor
  · intro xs hqv
    have hq : qfL xs = true := by simpa [qfV] using hqv
    have h1 := parse_json_safe_sqEncArr xs hq
    refine ⟨h1, parse_json_safe_encArr xs hq, ?_⟩
    rw [h1]
    exact jsonLoads_encV (.jarr xs) hqv
  · intro s h1 h2
    show (if (strip s).isEmpty then Jv.jarr []
      else if lowerStr (strip s) = ['n', 'u', 'l', 'l'] then Jv.jarr []
      else
        match jsonLoads (strip s) with
        | some v => v
        | none =>
          match jsonLoads ((strip s).map sqToDq) with
          | some v => v
          | none => Jv.jarr []) = Jv.jarr []
    by_cases he : (strip s).isEmpty = true
    · rw [if_pos he]
    · rw [if_neg he]
      by_cases hn : lowerStr (strip s) = ['n', 'u', 'l', 'l']
      · rw [if_pos hn]
      · rw [if_neg hn, h1, h2]

/-- Instance check for the amended round trip: the value
`[{"a": 1}]` is quote free, its single-quoted serialization decodes back to
it, and the unparsable text `x` decodes to the empty list. -/
theorem nested_roundtrip_amended_witness :
    qfV (.jarr [Jv.jobj [(['a'], Jv.jnum 1)]]) = true ∧
    parse_json_safe (some (sqEnc (.jarr [Jv.jobj [(['a'], Jv.jnum 1)]]))) =
      .jarr [Jv.jobj [(['a'], Jv.jnum 1)]] ∧
    jsonLoads (strip ['x']) = none ∧
    parse_json_safe (some ['x']) = .jarr [] :=
  ⟨rfl,
   (nested_roundtrip_amended.1 [Jv.jobj [(['a'], Jv.jnum 1)]] rfl).1,
   rfl,
   nested_roundtrip_amended.2 ['x'] rfl rfl⟩
